import Mathlib

/-!
Verification development for the `suff_collections` Rust crate
(suffix arrays by SA-IS, LCP arrays, Ukkonen suffix trees).

Words are modelled as `List Nat` of byte values; the generic suffix-index
type `T : SuffixIndices<T>` is modelled as `Nat` together with the explicit
bound `maxIdx` (`T::MAX`); on all runs considered the code's `T` arithmetic
stays below `T::MAX`, where it agrees with `Nat` arithmetic.  Fallible steps
(`unsafe` out-of-range accesses, unsigned-underflow, `unwrap` panics) are
modelled by `Option`/`Except`: `none` marks a run in which the Rust code
reads or writes out of bounds (undefined behaviour) or panics.
-/

namespace SuffCollections

/-- Errors of the constructor surface: `boundExceeded` models the
`assert!(word.len() < T::MAX)` guard (the spec's `BoundExceeded`);
`fault` models an out-of-bounds access / panic inside the build. -/
inductive SAErr where
  | boundExceeded
  | fault
deriving DecidableEq, Repr

/-- `SuffixArray { word, sa }` from `src/array.rs`. -/
structure SuffixArray where
  word : List Nat
  sa : List Nat
deriving DecidableEq, Repr

instance {ε α : Type} [DecidableEq ε] [DecidableEq α] :
    DecidableEq (Except ε α) := fun a b =>
  match a, b with
  | .error x, .error y =>
    if h : x = y then .isTrue (by rw [h])
    else .isFalse (by intro hc; cases hc; exact h rfl)
  | .ok x, .ok y =>
    if h : x = y then .isTrue (by rw [h])
    else .isFalse (by intro hc; cases hc; exact h rfl)
  | .error _, .ok _ => .isFalse (by intro hc; cases hc)
  | .ok _, .error _ => .isFalse (by intro hc; cases hc)

/-- `canonic_word` from `src/lib.rs`: append the `0` sentinel unless the
word already ends with it. -/
def canonic_word (word : List Nat) : List Nat :=
  if word.getLast? = some 0 then word else word ++ [0]

/-- Bounds-checked write `l[i] = v`; `none` models the out-of-bounds case
(in the source an unchecked write, i.e. undefined behaviour). -/
def setChk {α : Type} (l : List α) (i : Nat) (v : α) : Option (List α) :=
  if i < l.length then some (l.set i v) else none

/-- `TSuff` from `build_suffix_array` (`S = 0`, `L = 1`). -/
inductive TSuff where
  | S
  | L
deriving DecidableEq, Repr, Inhabited, BEq

/-- `calc_type`: the type vector is preinitialised to all `S` and filled
right to left: `t[i] = L` iff `s[i] > s[i+1]` or (`s[i] = s[i+1]` and
`t[i+1] = L`); the last position keeps `S`.  The right-to-left loop of the
source is expressed as structural recursion producing the same vector. -/
def calc_type : List Nat → List TSuff
  | [] => []
  | [_] => [TSuff.S]
  | a :: b :: rest =>
    let t := calc_type (b :: rest)
    (if a > b ∨ (a = b ∧ t.head? = some TSuff.L) then TSuff.L else TSuff.S) :: t

/-- `calc_lms` (byte layout): positions `i+1` with `t[i] = L` and
`t[i+1] = S`, in increasing order (source: `windows(2).enumerate().filter`). -/
def calc_lms (t : List TSuff) : List Nat :=
  ((List.range (t.length - 1)).filter
    (fun i => t.get? i == some TSuff.L && t.get? (i + 1) == some TSuff.S)).map (· + 1)

/-- The suffix-compare predicate of `naive_sort`:
`s_idx[a..] < s_idx[b..]` in lexicographic slice order (Rust `[T]::cmp`). -/
def lexLtB : List Nat → List Nat → Bool
  | _, [] => false
  | [], _ :: _ => true
  | a :: as_, b :: bs =>
    if a < b then true else if b < a then false else lexLtB as_ bs

def insert_by_lt (lt : Nat → Nat → Bool) (x : Nat) : List Nat → List Nat
  | [] => [x]
  | y :: ys => if lt x y then x :: y :: ys else y :: insert_by_lt lt x ys

def sort_by_lt (lt : Nat → Nat → Bool) : List Nat → List Nat
  | [] => []
  | x :: xs => insert_by_lt lt x (sort_by_lt lt xs)

/-- `naive_sort`: sort the positions by lexicographic comparison of the
suffixes `s_idx[a..]`.  The suffixes of a fixed word are pairwise distinct,
so the comparator is a strict total order and any sorting algorithm yields
the same list as the source's `sort_by`. -/
def naive_sort (sort : List Nat) (s_idx : List Nat) : List Nat :=
  sort_by_lt (fun a b => lexLtB (s_idx.drop a) (s_idx.drop b)) sort

/-- First half of `create_bucket_dict`: count occurrences
(`offset_dict[x].0 += 1`, second components untouched). -/
def bucket_counts (s_idx : List Nat) (offset_dict : List (Nat × Nat)) :
    Option (List (Nat × Nat)) :=
  s_idx.foldlM (fun od x => do
    let p ← od.get? x
    setChk od x (p.1 + 1, p.2)) offset_dict

/-- Second half of `create_bucket_dict`: the running prefix-sum fold turning
counts into `(start, end)` pairs. -/
def bucket_offsets (acc : Nat) : List (Nat × Nat) → List (Nat × Nat)
  | [] => []
  | (cnt, _) :: rest => (acc, acc + cnt) :: bucket_offsets (acc + cnt) rest

/-- `create_bucket_dict`. -/
def create_bucket_dict (s_idx : List Nat) (offset_dict : List (Nat × Nat)) :
    Option (List (Nat × Nat)) := do
  let od ← bucket_counts s_idx offset_dict
  pure (bucket_offsets 0 od)

/-- `add_lms_to_end`: copy bucket ends into `tmp_end_s` (via the
`zip` of the source, which writes only the common length), then place the
LMS positions in reverse order at the decremented bucket ends.
A decrement of a zero bucket end would wrap around in Rust and write far out
of bounds: modelled by `none`. -/
def add_lms_to_end (s_idx sa_lms : List Nat) (offset_dict : List (Nat × Nat))
    (tmp_end_s sa : List Nat) (sa_init : List Bool) :
    Option (List Nat × List Nat × List Bool) := do
  let tmp0 := ((offset_dict.take tmp_end_s.length).map Prod.snd)
      ++ tmp_end_s.drop offset_dict.length
  sa_lms.reverse.foldlM (fun st x => do
    let (tmp, sa, ini) := st
    let b ← s_idx.get? x
    let e ← tmp.get? b
    if e = 0 then none else do
    let e' := e - 1
    let tmp' ← setChk tmp b e'
    let sa' ← setChk sa e' x
    let ini' ← setChk ini e' true
    pure (tmp', sa', ini')) (tmp0, sa, sa_init)

/-- `add_L_to_start`: the left-to-right induction pass. -/
def add_L_to_start (s_idx : List Nat) (t : List TSuff)
    (offset_dict : List (Nat × Nat)) (sa : List Nat) (sa_init : List Bool) :
    Option (List (Nat × Nat) × List Nat × List Bool) :=
  (List.range sa.length).foldlM (fun st x => do
    let (od, sa, ini) := st
    let idx ← sa.get? x
    let b ← ini.get? x
    if idx > 0 ∧ b then do
      let idx1 := idx - 1
      let tt ← t.get? idx1
      if tt = TSuff.L then do
        let c ← s_idx.get? idx1
        let p ← od.get? c
        let sa' ← setChk sa p.1 idx1
        let ini' ← setChk ini p.1 true
        let od' ← setChk od c (p.1 + 1, p.2)
        pure (od', sa', ini')
      else pure (od, sa, ini)
    else pure (od, sa, ini)) (offset_dict, sa, sa_init)

/-- `add_S_to_end`: the right-to-left induction pass (bucket-end decrement
wrap-around modelled by `none` as above). -/
def add_S_to_end (s_idx : List Nat) (t : List TSuff)
    (offset_dict : List (Nat × Nat)) (sa : List Nat) (sa_init : List Bool) :
    Option (List (Nat × Nat) × List Nat × List Bool) :=
  (List.range sa.length).reverse.foldlM (fun st x => do
    let (od, sa, ini) := st
    let idx ← sa.get? x
    let b ← ini.get? x
    if idx > 0 ∧ b then do
      let idx1 := idx - 1
      let tt ← t.get? idx1
      if tt = TSuff.S then do
        let c ← s_idx.get? idx1
        let p ← od.get? c
        if p.2 = 0 then none else do
        let e' := p.2 - 1
        let od' ← setChk od c (p.1, e')
        let sa' ← setChk sa e' idx1
        let ini' ← setChk ini e' true
        pure (od', sa', ini')
      else pure (od, sa, ini)
    else pure (od, sa, ini)) (offset_dict, sa, sa_init)

/-- `induced_sort`: bucket build, LMS seed, L pass, S pass. -/
def induced_sort (s_idx sa_lms : List Nat) (t : List TSuff)
    (offset_dict : List (Nat × Nat)) (tmp_end_s sa : List Nat)
    (sa_init : List Bool) :
    Option (List (Nat × Nat) × List Nat × List Nat × List Bool) := do
  let od ← create_bucket_dict s_idx offset_dict
  let (tmp, sa, ini) ← add_lms_to_end s_idx sa_lms od tmp_end_s sa sa_init
  let (od, sa, ini) ← add_L_to_start s_idx t od sa ini
  let (od, sa, ini) ← add_S_to_end s_idx t od sa ini
  pure (od, tmp, sa, ini)

/-- `clear` on the bucket dictionary (`T::default()`s). -/
def clear_pairs (l : List (Nat × Nat)) : List (Nat × Nat) :=
  l.map (fun _ => (0, 0))

/-- `sa_init.clear()`. -/
def clear_bits (l : List Bool) : List Bool :=
  l.map (fun _ => false)

/-- `sublms_is_eq`: compare the two LMS substrings starting at `x` and
`prev` until a mismatch (`false`) or a following LMS boundary (`true`).
Each iteration the source reads `s_idx[x+i]`, `s_idx[prev+i]` (and the type
vector at the same indices) unchecked; when either index reaches the end of
the word the Rust code reads out of bounds: modelled by `none`.  `fuel`
makes the loop structural: `i` increases every round, so with
`fuel = s_idx.length + 1` the out-of-bounds case fires first and the
exhausted-fuel `none` is dead. -/
def sublms_is_eq (s_idx : List Nat) (t : List TSuff) (x prev : Nat) :
    Nat → Nat → Option Bool
  | _, 0 => none
  | i, fuel + 1 =>
    match s_idx.get? (x + i), s_idx.get? (prev + i) with
    | some a, some b =>
      match t.get? (x + i), t.get? (prev + i) with
      | some ta, some tb =>
        if a ≠ b ∨ ta ≠ tb then some false
        else if i ≠ 0 ∧ ((t.get? (x + i - 1) = some TSuff.L ∧ ta = TSuff.S)
            ∨ (t.get? (prev + i - 1) = some TSuff.L ∧ tb = TSuff.S))
        then some true
        else sublms_is_eq s_idx t x prev (i + 1) fuel
      | _, _ => none
    | _, _ => none

/-- The filter over the sorted LMS candidates inside `create_new_str`
(`x > 0 && t[x] = S && t[x-1] = L`, with short-circuit evaluation; the
unchecked read `t[x]` for `x` out of range is modelled by `none`). -/
def sorted_lms_filter (t : List TSuff) : List Nat → Option (List Nat)
  | [] => some []
  | x :: rest => do
    let keep ←
      if x = 0 then pure false
      else do
        let tx ← t.get? x
        if tx = TSuff.S then do
          let tx1 ← t.get? (x - 1)
          pure (tx1 = TSuff.L : Bool)
        else pure false
    let r ← sorted_lms_filter t rest
    pure (if keep then x :: r else r)

/-- The naming fold inside `create_new_str`: walk the sorted LMS list,
assigning `alphabet[x] := alphabet[prev]` when the LMS substrings are equal
and `alphabet[prev] + 1` otherwise. -/
def name_lms (s_idx : List Nat) (t : List TSuff) :
    List Nat → Nat → List Nat → Option (List Nat)
  | [], _, alphabet => some alphabet
  | x :: rest, prev, alphabet => do
    let eq ← sublms_is_eq s_idx t x prev 0 (s_idx.length + 1)
    let aprev ← alphabet.get? prev
    let alphabet ← setChk alphabet x (if eq then aprev else aprev + 1)
    name_lms s_idx t rest x alphabet

/-- `create_new_str`: name the LMS substrings in the scratch `alphabet`
buffer (the reused `tmp_end_s`), then read the names back in original LMS
order.  Returns the reduced string together with the mutated scratch. -/
def create_new_str (s_idx : List Nat) (alphabet sort_sublms : List Nat)
    (t : List TSuff) (idx_lms : List Nat) : Option (List Nat × List Nat) := do
  let prev := s_idx.length - 1
  let alphabet ← setChk alphabet prev 0
  let sorted_lms ← sorted_lms_filter t (sort_sublms.drop 1)
  let alphabet ← name_lms s_idx t sorted_lms prev alphabet
  let new_s ← idx_lms.mapM (fun x => alphabet.get? x)
  pure (new_s, alphabet)

/-- `pack_lms`: `offset_dict[s_idx[x]] := (count + 1, i)` for each LMS
position `x` (enumerated by `i`). -/
def pack_lms (idx_lms s_idx : List Nat) (offset_dict : List (Nat × Nat)) :
    Option (List (Nat × Nat)) :=
  (idx_lms.enum).foldlM (fun od ix => do
    let b ← s_idx.get? ix.2
    let p ← od.get? b
    setChk od b (p.1 + 1, ix.1)) offset_dict

/-- `lms_is_unique`: no bucket received two LMS positions. -/
def lms_is_unique (offset_dict : List (Nat × Nat)) : Bool :=
  !(offset_dict.any (fun p => p.1 > 1))

/-- `unpack_lms`: read back the LMS positions bucket by bucket. -/
def unpack_lms (idx_lms : List Nat) : List (Nat × Nat) → Option (List Nat)
  | [] => some []
  | (x, y) :: rest =>
    if x = 0 then unpack_lms idx_lms rest
    else do
      let v ← idx_lms.get? y
      let r ← unpack_lms idx_lms rest
      pure (v :: r)

/-- `LEN_NAIVE_SORT`. -/
def LEN_NAIVE_SORT : Nat := 50

/-- The four-buffer state `(offset_dict, tmp_end_s, sa, sa_init)` threaded
through the construction, standing for the mutable scratch slices. -/
abbrev Buffers : Type := List (Nat × Nat) × List Nat × List Nat × List Bool

/-- `sort_lms_in_new_str`: recurse on the reduced string over the front
slices of the scratch, then map the reduced suffix array back through
`idx_lms`.  The recursive call to `suffix_array` of the source is the
parameter `sa_rec`.  The source's `get_unchecked_mut(..new_size)` subslices
are undefined when `new_size` exceeds a buffer (modelled by `none`); the
untouched tails are reattached afterwards. -/
def sort_lms_in_new_str (sa_rec : List Nat → Buffers → Option Buffers)
    (new_s_idx : List Nat) (bufs : Buffers)
    (idx_lms : List Nat) : Option (List Nat × Buffers) := do
  let (offset_dict, tmp_end_s, sa, sa_init) := bufs
  let new_size := idx_lms.length
  if new_size ≤ offset_dict.length ∧ new_size ≤ tmp_end_s.length
      ∧ new_size ≤ sa.length ∧ new_size ≤ sa_init.length then do
    let (od', tmp', sa', init') ← sa_rec new_s_idx
      (offset_dict.take new_size, tmp_end_s.take new_size,
       sa.take new_size, sa_init.take new_size)
    let offset_dict := od' ++ offset_dict.drop new_size
    let tmp_end_s := tmp' ++ tmp_end_s.drop new_size
    let res ← (sa'.take new_size).mapM (fun x => idx_lms.get? x)
    let sa := sa' ++ sa.drop new_size
    let sa_init := init' ++ sa_init.drop new_size
    pure (res, offset_dict, tmp_end_s, sa, sa_init)
  else none

/-- `sort_lms`: pack the LMS positions, then one of the four cases of the
source (single LMS / unique buckets / naive sort below `LEN_NAIVE_SORT` /
reduce and recurse through `sa_rec`). -/
def sort_lms (sa_rec : List Nat → Buffers → Option Buffers)
    (s_idx : List Nat) (bufs : Buffers)
    (t : List TSuff) (idx_lms : List Nat) :
    Option (List Nat × Buffers) := do
  let (offset_dict, tmp_end_s, sa, sa_init) := bufs
  let offset_dict ← pack_lms idx_lms s_idx offset_dict
  if idx_lms.length = 1 then do
    let v ← idx_lms.get? 0
    pure ([v], offset_dict, tmp_end_s, sa, sa_init)
  else if lms_is_unique offset_dict then do
    let r ← unpack_lms idx_lms offset_dict
    pure (r, offset_dict, tmp_end_s, sa, sa_init)
  else if idx_lms.length ≤ LEN_NAIVE_SORT then
    pure (naive_sort idx_lms s_idx, offset_dict, tmp_end_s, sa, sa_init)
  else do
    let offset_dict := clear_pairs offset_dict
    let (offset_dict, tmp_end_s, sa, sa_init) ←
      induced_sort s_idx idx_lms t offset_dict tmp_end_s sa sa_init
    let (new_s_idx, tmp_end_s) ← create_new_str s_idx tmp_end_s sa t idx_lms
    let sa_init := clear_bits sa_init
    let offset_dict := clear_pairs offset_dict
    sort_lms_in_new_str sa_rec new_s_idx
      (offset_dict, tmp_end_s, sa, sa_init) idx_lms

/-- `suffix_array` from `build_suffix_array`, with the mutable scratch
threaded explicitly.  The recursion of the source is bounded by `fuel`:
every recursive call is on the strictly shorter reduced string, so
`fuel = s_idx.length + 1` at the top level can never be exhausted and the
`none` on empty fuel is a dead branch. -/
def suffix_array : Nat → List Nat → Buffers → Option Buffers
  | 0, _, _ => none
  | fuel + 1, s_idx, bufs => do
    let (offset_dict, tmp_end_s, sa, sa_init) := bufs
    let t := calc_type s_idx
    let idx_lms := calc_lms t
    let (sa_lms, offset_dict, tmp_end_s, sa, sa_init) ←
      sort_lms (fun s b => suffix_array fuel s b) s_idx
        (offset_dict, tmp_end_s, sa, sa_init) t idx_lms
    let sa_init := clear_bits sa_init
    let offset_dict := clear_pairs offset_dict
    induced_sort s_idx sa_lms t offset_dict tmp_end_s sa sa_init

/-- The work items `TState::{Rec, RecEnd, End}` of the non-recursive
builder; the `Vec<Byte>` holding the type vector is carried as
`List TSuff` (the byte layout stores a `TSuff` per byte). -/
inductive TState where
  | Rec (s_idx : List Nat)
  | RecEnd (s_idx idx_lms : List Nat) (t : List TSuff)
  | End (s_idx : List Nat) (t : List TSuff)

/-- Front slices `(..n)` of the four scratch buffers; `none` when a buffer
is shorter than `n` (an out-of-bounds `get_unchecked_mut(..n)` subslice). -/
def take_bufs (n : Nat) (bufs : Buffers) : Option Buffers :=
  let (od, tmp, sa, ini) := bufs
  if n ≤ od.length ∧ n ≤ tmp.length ∧ n ≤ sa.length ∧ n ≤ ini.length then
    some (od.take n, tmp.take n, sa.take n, ini.take n)
  else none

/-- Reattach the untouched tails after working on front slices. -/
def join_bufs (n : Nat) (sliced bufs : Buffers) : Buffers :=
  let (od', tmp', sa', ini') := sliced
  let (od, tmp, sa, ini) := bufs
  (od' ++ od.drop n, tmp' ++ tmp.drop n, sa' ++ sa.drop n, ini' ++ ini.drop n)

/-- The loop body of `suffix_array_stack_inner` for a `TState::Rec` item:
returns the new `res_lms` and the items pushed on the stack.
Note that in `Rec` the source slices `offset_dict`, `sa` and `sa_init` to
`s_idx.len()` for the whole case but passes the sliced `tmp_end_s` only to
`induced_sort`, calling `create_new_str` with the full `tmp_end_s`. -/
def stack_rec_step (s_idx : List Nat) (bufs : Buffers) :
    Option (Option (List Nat) × List TState × Buffers) := do
  let n := s_idx.length
  let (od_full, tmp, sa_full, ini_full) := bufs
  if n ≤ od_full.length ∧ n ≤ sa_full.length ∧ n ≤ ini_full.length then do
    let od := od_full.take n
    let sa := sa_full.take n
    let ini := ini_full.take n
    let t := calc_type s_idx
    let idx_lms := calc_lms t
    let od ← pack_lms idx_lms s_idx od
    if idx_lms.length = 1 then do
      let v ← idx_lms.get? 0
      pure (some [v], [TState.End s_idx t],
        (od ++ od_full.drop n, tmp, sa ++ sa_full.drop n, ini ++ ini_full.drop n))
    else if lms_is_unique od then do
      let r ← unpack_lms idx_lms od
      pure (some r, [TState.End s_idx t],
        (od ++ od_full.drop n, tmp, sa ++ sa_full.drop n, ini ++ ini_full.drop n))
    else if idx_lms.length ≤ LEN_NAIVE_SORT then
      pure (some (naive_sort idx_lms s_idx), [TState.End s_idx t],
        (od ++ od_full.drop n, tmp, sa ++ sa_full.drop n, ini ++ ini_full.drop n))
    else do
      if n ≤ tmp.length then do
        let od := clear_pairs od
        let (od, tmp_sl, sa, ini) ←
          induced_sort s_idx idx_lms t od (tmp.take n) sa ini
        let tmp := tmp_sl ++ tmp.drop n
        let (new_s_idx, tmp) ← create_new_str s_idx tmp sa t idx_lms
        let ini := clear_bits ini
        let od := clear_pairs od
        pure (none, [TState.RecEnd s_idx idx_lms t, TState.Rec new_s_idx],
          (od ++ od_full.drop n, tmp, sa ++ sa_full.drop n, ini ++ ini_full.drop n))
      else none
  else none

/-- The loop body shared by `TState::End` and `TState::RecEnd`: clear the
sliced scratch, run the final induced sort with the given seed, and return
the sliced `sa` as the new `res_lms`. -/
def stack_end_step (s_idx sa_lms : List Nat) (t : List TSuff)
    (bufs : Buffers) : Option (List Nat × Buffers) := do
  let n := s_idx.length
  let (od_full, tmp, sa_full, ini_full) := bufs
  if n ≤ od_full.length ∧ n ≤ sa_full.length ∧ n ≤ ini_full.length
      ∧ n ≤ tmp.length then do
    let od := clear_pairs (od_full.take n)
    let ini := clear_bits (ini_full.take n)
    let (od, tmp_sl, sa, ini) ←
      induced_sort s_idx sa_lms t od (tmp.take n) (sa_full.take n) ini
    pure (sa,
      (od ++ od_full.drop n, tmp_sl ++ tmp.drop n,
       sa ++ sa_full.drop n, ini ++ ini_full.drop n))
  else none

/-- `suffix_array_stack_inner`: pop work items LIFO until the stack is
empty; `fuel` bounds the number of iterations (each level of the recursion
contributes at most two items, so the loop terminates; `none` on exhausted
fuel is a dead branch for adequate fuel). -/
def suffix_array_stack_inner (fuel : Nat) (bufs : Buffers)
    (stack : List TState) (res_lms : List Nat) :
    Option (List Nat × Buffers) :=
  match fuel with
  | 0 => none
  | fuel + 1 =>
    match stack with
    | [] => some (res_lms, bufs)
    | TState.Rec s_idx :: rest => do
      let (res, pushed, bufs) ← stack_rec_step s_idx bufs
      suffix_array_stack_inner fuel bufs (pushed.reverse ++ rest)
        (res.getD res_lms)
    | TState.End s_idx t :: rest => do
      let (res, bufs) ← stack_end_step s_idx res_lms t bufs
      suffix_array_stack_inner fuel bufs rest res
    | TState.RecEnd s_idx idx_lms t :: rest => do
      let sa_lms ← res_lms.mapM (fun x => idx_lms.get? x)
      let (res, bufs) ← stack_end_step s_idx sa_lms t bufs
      suffix_array_stack_inner fuel bufs rest res

/-- `suffix_array_stack`: the straight-line top level of the non-recursive
builder.  Unlike `sort_lms`, the top level has no naive-sort case: with
more than one LMS position and a non-unique bucket packing it always
reduces and enters the work-list loop. -/
def suffix_array_stack (fuel : Nat) (s_idx : List Nat) (bufs : Buffers) :
    Option Buffers := do
  let (offset_dict, tmp_end_s, sa, sa_init) := bufs
  let t := calc_type s_idx
  let idx_lms := calc_lms t
  let offset_dict ← pack_lms idx_lms s_idx offset_dict
  if idx_lms.length = 1 then do
    let v ← idx_lms.get? 0
    let sa_init := clear_bits sa_init
    let offset_dict := clear_pairs offset_dict
    induced_sort s_idx [v] t offset_dict tmp_end_s sa sa_init
  else if lms_is_unique offset_dict then do
    let res_lms ← unpack_lms idx_lms offset_dict
    let sa_init := clear_bits sa_init
    let offset_dict := clear_pairs offset_dict
    induced_sort s_idx res_lms t offset_dict tmp_end_s sa sa_init
  else do
    let offset_dict := clear_pairs offset_dict
    let (offset_dict, tmp_end_s, sa, sa_init) ←
      induced_sort s_idx idx_lms t offset_dict tmp_end_s sa sa_init
    let (new_s_idx, tmp_end_s) ← create_new_str s_idx tmp_end_s sa t idx_lms
    let sa_init := clear_bits sa_init
    let offset_dict := clear_pairs offset_dict
    let (res_lms, (offset_dict, tmp_end_s, sa, sa_init)) ←
      suffix_array_stack_inner fuel
        (offset_dict, tmp_end_s, sa, sa_init) [TState.Rec new_s_idx] []
    let sa_init := clear_bits sa_init
    let offset_dict := clear_pairs offset_dict
    let sa_lms ← res_lms.mapM (fun x => idx_lms.get? x)
    induced_sort s_idx sa_lms t offset_dict tmp_end_s sa sa_init

/-- `SuffixArray::<T>::new` for `T` with maximum value `maxIdx`:
the `assert!(word.len() < T::MAX)` guard (reported as the spec's
`BoundExceeded`), the empty-word early return, `canonic_word`, the
freshly allocated scratch of size `max(word.len(), DICT_SIZE)`, and the
recursive SA-IS core. -/
def SuffixArray.new (maxIdx : Nat) (word : List Nat) :
    Except SAErr SuffixArray :=
  if word.length < maxIdx then
    if word.isEmpty then .ok ⟨[], []⟩
    else
      let w := canonic_word word
      let dictLen := max w.length 256
      let offset_dict : List (Nat × Nat) := List.replicate dictLen (0, 0)
      let tmp_end_s : List Nat := List.replicate dictLen 0
      let sa : List Nat := List.replicate w.length 0
      let sa_init : List Bool := List.replicate w.length false
      match suffix_array (w.length + 1) w
          (offset_dict, tmp_end_s, sa, sa_init) with
      | some (_, _, sa, _) => .ok ⟨w, sa⟩
      | none => .error .fault
  else .error .boundExceeded

/-- `SuffixArray::<T>::new_stack`: the non-recursive builder behind the
same constructor surface. -/
def SuffixArray.new_stack (maxIdx : Nat) (word : List Nat) :
    Except SAErr SuffixArray :=
  if word.length < maxIdx then
    if word.isEmpty then .ok ⟨[], []⟩
    else
      let w := canonic_word word
      let dictLen := max w.length 256
      let offset_dict : List (Nat × Nat) := List.replicate dictLen (0, 0)
      let tmp_end_s : List Nat := List.replicate dictLen 0
      let sa : List Nat := List.replicate w.length 0
      let sa_init : List Bool := List.replicate w.length false
      match suffix_array_stack (4 * w.length + 8) w
          (offset_dict, tmp_end_s, sa, sa_init) with
      | some (_, _, sa, _) => .ok ⟨w, sa⟩
      | none => .error .fault
  else .error .boundExceeded

/-- `usize::MAX`: the index bound of `T = usize`. -/
def usizeMax : Nat := 18446744073709551615

/-- `count_eq`: extend `acc` while both slices continue and agree.  `fuel`
makes the loop structural; since `acc` grows every round, any
`fuel > cmp1.length - acc` is never exhausted. -/
def count_eq (cmp1 cmp2 : List Nat) : Nat → Nat → Nat
  | 0, acc => acc
  | fuel + 1, acc =>
    match cmp1.get? acc, cmp2.get? acc with
    | some a, some b =>
      if a = b then count_eq cmp1 cmp2 fuel (acc + 1) else acc
    | _, _ => acc

/-- The loop body of `SuffixArray::lcp` over the rank vector `sa_idx`:
`p` counts the already-processed text positions.  `x = 0` marks a rank cell
the permutation never wrote; the source then computes `x - 1` on an
unsigned integer and indexes with the wrapped-around value (a panic in
debug, undefined behaviour in release): modelled by `none`.  The reads
`sa[x-1]`, `sa[x]` and the suffix slices `word[l..]`, `word[r..]` are
unchecked in the source; out-of-range is `none` likewise. -/
def lcp_loop (word sa : List Nat) (saLen : Nat) :
    List Nat → List Nat → Nat → Option (List Nat)
  | [], lcpArr, _ => some lcpArr
  | x :: rest, lcpArr, pref_len =>
    if x = saLen then lcp_loop word sa saLen rest lcpArr 0
    else if x = 0 then none
    else do
      let l ← sa.get? (x - 1)
      let r ← sa.get? x
      if l ≤ word.length ∧ r ≤ word.length then do
        let pl := count_eq (word.drop l) (word.drop r) (word.length + 1)
          pref_len
        let lcpArr ← setChk lcpArr x pl
        lcp_loop word sa saLen rest lcpArr (if pl > 0 then pl - 1 else pl)
      else none

/-- The construction of the rank vector `sa_idx` in `SuffixArray::lcp`:
`sa_idx[sa[i]] = i + 1` for each `i` (unchecked write: `none` when a
suffix-array entry is out of range). -/
def build_sa_idx (sa : List Nat) : Option (List Nat) :=
  (sa.enum).foldlM (fun sa_idx ix => setChk sa_idx ix.2 (ix.1 + 1))
    (List.replicate sa.length 0)

/-- `SuffixArray::lcp`. -/
def SuffixArray.lcp (A : SuffixArray) : Option (List Nat) := do
  let sa_idx ← build_sa_idx A.sa
  lcp_loop A.word A.sa A.sa.length sa_idx (List.replicate A.sa.length 0) 0

/-- `binary_search` from `src/array.rs`: the `start`/`cnt` halving loop.
`fuel` makes the loop structural; `cnt` strictly decreases every round, so
`fuel = cnt + 1` is never exhausted. -/
def binary_search_loop {α : Type} (x : List α) (cmp : α → Bool) :
    Nat → Nat → Nat → Nat
  | 0, start, _ => start
  | fuel + 1, start, cnt =>
    if cnt = 0 then start
    else
      let mid := start + cnt / 2
      match x.get? mid with
      | none => start
      | some this =>
        if cmp this then
          binary_search_loop x cmp fuel (mid + 1) (cnt - (cnt / 2 + 1))
        else
          binary_search_loop x cmp fuel start (cnt / 2)

/-- `binary_search`: on entry `cnt = x.len()`, so every probed `mid` is in
range and the `none` branch of the loop is dead (the source indexes
`x[mid]` checked; it cannot panic from this call pattern). -/
def binary_search {α : Type} (x : List α) (cmp : α → Bool) : Nat :=
  binary_search_loop x cmp (x.length + 1) 0 x.length

/-- `find_pos`: the pair `(start, end)` of the two binary searches.
The probe `&word[idx..] < find` uses checked slicing; for a well-formed
suffix array every entry satisfies `idx ≤ word.len()` and `List.drop`
yields exactly the probed suffix. -/
def find_pos (A : SuffixArray) (find : List Nat) : Nat × Nat :=
  if find.isEmpty then (0, 0)
  else
    let word := A.word
    let start := binary_search A.sa (fun idx => lexLtB (word.drop idx) find)
    let e := start + binary_search (A.sa.drop start) (fun idx =>
      decide (idx + find.length < word.length
        ∧ (word.drop idx).take find.length = find))
    (start, e)

/-- `SuffixArray::find`: `sa[start]` when the match range is non-empty.
`start < end` entails `start < sa.len()`, so the checked index of the
source cannot panic; `get?` returns the same element. -/
def SuffixArray.find (A : SuffixArray) (find : List Nat) : Option Nat :=
  let (start, e) := find_pos A find
  if start ≥ e then none else A.sa.get? start

/-- `SuffixArray::find_all`: the slice `sa[start..end]`. -/
def SuffixArray.find_all (A : SuffixArray) (find : List Nat) : List Nat :=
  let (start, e) := find_pos A find
  (A.sa.drop start).take (e - start)

/-- The scan loop of `find_pos_big` (`i` is the 1-based companion index of
the `zip`; the source reads `word[idx..]` via safe indexing — garbage
suffix-array entries beyond the word produce a panic, modelled `none`). -/
def find_pos_big_loop (word find lcp : List Nat) :
    List Nat → Nat → Nat → Option (Option Nat)
  | [], _, _ => some none
  | idx :: rest, i, total_eq =>
    if idx ≤ word.length then
      let total_eq := count_eq (word.drop idx) find (word.length + 1) total_eq
      if total_eq = find.length then some (some (i - 1))
      else if i < lcp.length ∧ total_eq > lcp.getD i 0 then some none
      else find_pos_big_loop word find lcp rest (i + 1) total_eq
    else none

/-- `find_pos_big`: empty patterns return `None` before anything else; the
leading-byte binary search reads `word[idx]` with checked indexing (for a
well-formed suffix array every entry is in range; `getD` agrees there). -/
def find_pos_big (A : SuffixArray) (lcp : List Nat) (find : List Nat) :
    Option (Option Nat) :=
  if find.isEmpty then some none
  else
    let word := A.word
    let start := binary_search A.sa (fun idx =>
      decide ((word.getD idx 0) < find.getD 0 0))
    find_pos_big_loop word find lcp (A.sa.drop start) (start + 1) 0

/-- `SuffixArray::find_big`. -/
def SuffixArray.find_big (A : SuffixArray) (lcp : List Nat)
    (find : List Nat) : Option (Option Nat) := do
  let r ← find_pos_big A lcp find
  match r with
  | none => pure none
  | some idx => pure (A.sa.get? idx)

/-- `SuffixArray::find_all_big`: from the first hit, extend while the
following LCP entries cover the whole pattern. -/
def SuffixArray.find_all_big (A : SuffixArray) (lcp : List Nat)
    (find : List Nat) : Option (List Nat) := do
  let r ← find_pos_big A lcp find
  match r with
  | none => pure []
  | some start =>
    let e := start + ((lcp.drop (start + 1)).takeWhile
      (fun l => find.length ≤ l)).length
    pure ((A.sa.drop start).take (e + 1 - start))

/-- `Node` from `src/tree.rs`; handles are indices into the node table. -/
structure Node where
  link : Option Nat
  parent : Nat
  children : List (Nat × Nat)
  len : Nat
  pos : Nat
deriving DecidableEq, Repr, Inhabited

/-- `BTreeMap<u8, NodeIdx>::get`. -/
def children_get : List (Nat × Nat) → Nat → Option Nat
  | [], _ => none
  | (k, v) :: rest, ch => if k = ch then some v else children_get rest ch

/-- `BTreeMap<u8, NodeIdx>::insert`, keeping keys in ascending byte order
(the iteration order of a `BTreeMap`). -/
def children_insert : List (Nat × Nat) → Nat → Nat → List (Nat × Nat)
  | [], ch, v => [(ch, v)]
  | (k, w) :: rest, ch, v =>
    if ch < k then (ch, v) :: (k, w) :: rest
    else if ch = k then (ch, v) :: rest
    else (k, w) :: children_insert rest ch v

/-- The active point `State { node_idx, edge_pos }`. -/
structure State where
  node_idx : Nat
  edge_pos : Nat
deriving DecidableEq, Repr

/-- `AloneSuffixTree`: the node table. -/
structure AloneSuffixTree where
  nodes : List Node
deriving DecidableEq, Repr

/-- The root node every tree starts from (link and parent are the root
itself). -/
def rootNode : Node :=
  { link := some 0, parent := 0, children := [], len := 0, pos := 0 }

/-- `AloneSuffixTree::node`: handle lookup (a bad handle panics in the
source: `none`). -/
def AloneSuffixTree.node (tr : AloneSuffixTree) (i : Nat) : Option Node :=
  tr.nodes.get? i

/-- Write back a node (the `node_mut` access paths of the source). -/
def AloneSuffixTree.set_node (tr : AloneSuffixTree) (i : Nat) (nd : Node) :
    Option AloneSuffixTree := do
  let nodes ← setChk tr.nodes i nd
  pure ⟨nodes⟩

/-- `try_to_node`. -/
def AloneSuffixTree.try_to_node (tr : AloneSuffixTree) (cur ch : Nat) :
    Option (Option Nat) := do
  let nd ← tr.node cur
  pure (children_get nd.children ch)

/-- `to_node` (`try_to_node(..).unwrap()`; the panic is `none`). -/
def AloneSuffixTree.to_node (tr : AloneSuffixTree) (cur ch : Nat) :
    Option Nat := do
  let r ← tr.try_to_node cur ch
  r

/-- `is_end_edge`. -/
def AloneSuffixTree.is_end_edge (tr : AloneSuffixTree) (s : State) :
    Option Bool := do
  let nd ← tr.node s.node_idx
  pure (s.edge_pos = nd.pos + nd.len)

/-- `update_edge`. -/
def AloneSuffixTree.update_edge (tr : AloneSuffixTree)
    (node_idx parent len pos : Nat) : Option AloneSuffixTree := do
  let nd ← tr.node node_idx
  tr.set_node node_idx { nd with parent := parent, len := len, pos := pos }

/-- `update_link`: set the suffix link of the active node and move the
active point to the end of the link target's edge. -/
def AloneSuffixTree.update_link (tr : AloneSuffixTree) (s : State)
    (link : Nat) : Option (AloneSuffixTree × State) := do
  let nd ← tr.node s.node_idx
  let tr ← tr.set_node s.node_idx { nd with link := some link }
  let ndl ← tr.node link
  pure (tr, ⟨link, ndl.pos + ndl.len⟩)

/-- `set_child`. -/
def AloneSuffixTree.set_child (tr : AloneSuffixTree)
    (node_idx child_idx ch : Nat) : Option AloneSuffixTree := do
  let nd ← tr.node node_idx
  tr.set_node node_idx
    { nd with children := children_insert nd.children ch child_idx }

/-- The `Node` value `add_node` pushes (no link, no children). -/
def freshNode (parent len pos : Nat) : Node :=
  { link := none, parent := parent, children := [], len := len, pos := pos }

/-- `add_node`: append a fresh node (no link) and return its handle. -/
def AloneSuffixTree.add_node (tr : AloneSuffixTree) (parent len pos : Nat) :
    AloneSuffixTree × Nat :=
  (⟨tr.nodes ++ [freshNode parent len pos]⟩, tr.nodes.length)

/-- `split`: insert an internal node carrying the first `pref_len` bytes of
`node_idx`'s edge; `node_idx` keeps the suffix part starting at
`split_word_pos`.  The two `word.as_bytes()[..]` reads are checked indexing
(panic is `none`). -/
def AloneSuffixTree.split (tr : AloneSuffixTree) (word : List Nat)
    (node_idx split_word_pos pref_len suf_len : Nat) :
    Option (AloneSuffixTree × Nat) := do
  let nd ← tr.node node_idx
  let (tr, insert_node) := tr.add_node nd.parent pref_len nd.pos
  let ch1 ← word.get? split_word_pos
  let tr ← tr.set_child insert_node node_idx ch1
  let nd2 ← tr.node node_idx
  let ch2 ← word.get? nd2.pos
  let tr ← tr.set_child nd2.parent insert_node ch2
  let tr ← tr.update_edge node_idx insert_node suf_len split_word_pos
  pure (tr, insert_node)

/-- `skip_walk`: descend whole edges keyed by their first byte until the
remaining `edge_len` fits inside the current edge.  `fuel` bounds the loop
(in the source a malformed tree with a zero-length edge would loop
forever); word reads and the `to_node` unwrap are fallible as usual. -/
def AloneSuffixTree.skip_walk (tr : AloneSuffixTree) (word : List Nat) :
    Nat → Nat → Nat → Nat → Option (Nat × Nat × Nat)
  | 0, _, _, _ => none
  | fuel + 1, link, word_pos, edge_len => do
    let key ← word.get? word_pos
    let link ← tr.to_node link key
    let nd ← tr.node link
    if edge_len > nd.len then
      tr.skip_walk word fuel link (word_pos + nd.len) (edge_len - nd.len)
    else
      pure (link, word_pos, edge_len)

/-- The outcome tags of `try_transfer_to` (the `Transfer` enum; the borrow
payload is carried by the explicit tree/state threading). -/
inductive TransferKind where
  | success
  | stopInNode
  | stopInEdge
deriving DecidableEq, Repr

/-- `try_transfer_to`: at the end of the active edge (for the online tree
only when the edge is not open) descend by `ch` or stop in the node;
otherwise compare the next byte on the edge. -/
def AloneSuffixTree.try_transfer_to (tr : AloneSuffixTree) (word : List Nat)
    (s : State) (ch : Nat) (is_online : Bool) :
    Option (TransferKind × State) := do
  let nd ← tr.node s.node_idx
  let endEdge := s.edge_pos = nd.pos + nd.len
  if (is_online ∧ nd.len ≠ usizeMax ∧ endEdge) ∨ (¬ is_online ∧ endEdge) then
    match children_get nd.children ch with
    | some nxt => do
      let nd2 ← tr.node nxt
      pure (TransferKind.success, ⟨nxt, nd2.pos + 1⟩)
    | none => pure (TransferKind.stopInNode, s)
  else do
    let c ← word.get? s.edge_pos
    if c = ch then pure (TransferKind.success, ⟨s.node_idx, s.edge_pos + 1⟩)
    else pure (TransferKind.stopInEdge, s)

/-- `create_transfer`: on `StopInEdge` split the active edge at the active
point, then (in both stop cases) hang a fresh leaf for the current suffix
under the active node (`usize::MAX` marks an open leaf of the online
tree).  The subtractions are on `usize`; on the runs considered they never
underflow and agree with truncated `Nat` subtraction. -/
def create_transfer (kind : TransferKind) (tr : AloneSuffixTree)
    (word : List Nat) (s : State) (ch ch_pos : Nat) (is_online : Bool) :
    Option (AloneSuffixTree × State) := do
  let (tr, s) ←
    match kind with
    | TransferKind.stopInEdge => do
      let nd ← tr.node s.node_idx
      let suf_len := if is_online ∧ nd.len = usizeMax then usizeMax
        else nd.pos + nd.len - s.edge_pos
      let pref_len := if is_online then s.edge_pos - nd.pos
        else nd.len - suf_len
      let (tr, sidx) ← tr.split word s.node_idx s.edge_pos pref_len suf_len
      pure (tr, ({ s with node_idx := sidx } : State))
    | _ => pure (tr, s)
  let current_suf_len := if is_online then usizeMax else word.length - ch_pos
  let (tr, add_node_idx) := tr.add_node s.node_idx current_suf_len ch_pos
  let tr ← tr.set_child s.node_idx add_node_idx ch
  pure (tr, s)

/-- `to_link`: continue with the next shorter suffix.  Returns `false`
(loop finished) at the root; otherwise follow an existing suffix link, or
re-descend with `skip_walk` from the parent's link and set the discovered
(or split-created) node as the link target. -/
def to_link (tr : AloneSuffixTree) (word : List Nat) (s : State)
    (is_online : Bool) : Option (Bool × AloneSuffixTree × State) := do
  if s.node_idx = 0 then pure (false, tr, s)
  else do
    let nd ← tr.node s.node_idx
    match nd.link with
    | some link => do
      let ndl ← tr.node link
      pure (true, tr, (⟨link, ndl.pos + ndl.len⟩ : State))
    | none => do
      let edge_len := nd.len
      let word_pos := nd.pos
      let parent_idx := nd.parent
      if parent_idx = 0 ∧ nd.len = 1 then do
        let tr ← tr.set_node s.node_idx { nd with link := some 0 }
        pure (true, tr, (⟨0, 0⟩ : State))
      else do
        let edge_len := if parent_idx = 0 then edge_len - 1 else edge_len
        let word_pos := if parent_idx = 0 then word_pos + 1 else word_pos
        let ndp ← tr.node parent_idx
        let linkStart ← ndp.link
        let (link, word_pos, edge_len) ←
          tr.skip_walk word (word.length + 2) linkStart word_pos edge_len
        let ndl ← tr.node link
        if edge_len = ndl.len then do
          let (tr, s) ← tr.update_link s link
          pure (true, tr, s)
        else do
          let word_pos := word_pos + edge_len
          let suf_len := if is_online ∧ ndl.len = usizeMax then usizeMax
            else ndl.len - edge_len
          let (tr, insert_node) ← tr.split word link word_pos edge_len suf_len
          let (tr, s) ← tr.update_link s insert_node
          pure (true, tr, s)

/-- One iteration of the per-phase `while` loop of `build_ukkonen` /
`OnlineSuffixTree::add`: a successful transfer ends the phase, otherwise
`create_transfer` then `to_link` decide whether to go round again. -/
def ukkonen_iter (tr : AloneSuffixTree) (word : List Nat) (s : State)
    (ch ch_pos : Nat) (is_online : Bool) :
    Option (Bool × AloneSuffixTree × State) := do
  let (kind, s) ← tr.try_transfer_to word s ch is_online
  match kind with
  | TransferKind.success => pure (false, tr, s)
  | _ => do
    let (tr, s) ← create_transfer kind tr word s ch ch_pos is_online
    to_link tr word s is_online

/-- The per-phase `while` loop, bounded by `fuel` (every continuing
iteration adds a leaf, so `word.length + 2` iterations always suffice for
the words considered; `none` on exhausted fuel marks divergence). -/
def ukkonen_phase (tr : AloneSuffixTree) (word : List Nat) (s : State)
    (ch ch_pos : Nat) (is_online : Bool) :
    Nat → Option (AloneSuffixTree × State)
  | 0 => none
  | fuel + 1 => do
    let (again, tr, s) ← ukkonen_iter tr word s ch ch_pos is_online
    if again then ukkonen_phase tr word s ch ch_pos is_online fuel
    else pure (tr, s)

/-- The phase fold shared by `build_ukkonen` (batch) and
`OnlineSuffixTree::add`: one phase per byte, `i` tracking the byte's
position in the full word. -/
def ukkonen_phases (word : List Nat) (is_online : Bool) :
    List Nat → Nat → AloneSuffixTree → State →
    Option (AloneSuffixTree × State)
  | [], _, tr, s => some (tr, s)
  | ch :: rest, i, tr, s => do
    let (tr, s) ← ukkonen_phase tr word s ch i is_online (word.length + 2)
    ukkonen_phases word is_online rest (i + 1) tr s

/-- `SuffixTree` (an owned word plus the node table). -/
structure SuffixTree where
  word : List Nat
  tree : AloneSuffixTree
deriving DecidableEq, Repr

/-- `SuffixTree::new`: the empty word gives the lone root; otherwise run
`build_ukkonen`: one phase per byte of the word, then the terminal phase
with `ch = 0` at position `word.len()`. -/
def SuffixTree.new (word : List Nat) : Option SuffixTree :=
  if word.isEmpty then some ⟨[], ⟨[rootNode]⟩⟩
  else do
    let tr : AloneSuffixTree := ⟨[rootNode]⟩
    let s : State := ⟨0, 0⟩
    let (tr, s) ← ukkonen_phases word false word 0 tr s
    let (tr, _) ← ukkonen_phase tr word s 0 word.length false
      (word.length + 2)
    pure ⟨word, tr⟩

/-- `OnlineSuffixTree`. -/
structure OnlineSuffixTree where
  word : List Nat
  tree : AloneSuffixTree
  build_info : State
deriving DecidableEq, Repr

/-- `OnlineSuffixTree::new`. -/
def OnlineSuffixTree.new : OnlineSuffixTree :=
  ⟨[], ⟨[rootNode]⟩, ⟨0, 0⟩⟩

/-- `OnlineSuffixTree::add`: extend the stored word, then run one (online)
phase per added byte starting from the saved active point. -/
def OnlineSuffixTree.add (ost : OnlineSuffixTree) (add_word : List Nat) :
    Option OnlineSuffixTree := do
  let i := ost.word.length
  let word := ost.word ++ add_word
  let (tr, s) ← ukkonen_phases word true add_word i ost.tree ost.build_info
  pure ⟨word, tr, s⟩

/-- `OnlineSuffixTree::finish`: one more phase with the synthetic `0`
terminator, then materialise every open leaf length as `i - pos`. -/
def OnlineSuffixTree.finish (ost : OnlineSuffixTree) : Option SuffixTree := do
  let i := ost.word.length
  let (tr, _) ← ukkonen_phase ost.tree ost.word ost.build_info 0 i true
    (ost.word.length + 2)
  let nodes := tr.nodes.map (fun nd =>
    if nd.len = usizeMax then { nd with len := i - nd.pos } else nd)
  pure ⟨ost.word, ⟨nodes⟩⟩

/-- The byte-by-byte scan along one edge inside `AloneSuffixTree::find`
(`while edge_pos < end_edge_pos && !find.is_empty() && word[edge_pos] =
find[0]`); the checked read `word[edge_pos]` panics out of range
(`none`). -/
def find_scan (word : List Nat) :
    List Nat → Nat → Nat → Option (Nat × List Nat)
  | [], edge_pos, _ => some (edge_pos, [])
  | f :: rest, edge_pos, end_pos =>
    if edge_pos < end_pos then do
      let c ← word.get? edge_pos
      if c = f then find_scan word rest (edge_pos + 1) end_pos
      else some (edge_pos, f :: rest)
    else some (edge_pos, f :: rest)

/-- `AloneSuffixTree::find`: descend from the root matching bytes on edges
(`fuel` bounds the node-hop loop; every hop past a non-empty edge consumes
pattern bytes, so `find.length + 2` hops suffice on the trees of the
claims). -/
def AloneSuffixTree.find (tr : AloneSuffixTree) (word : List Nat)
    (find_len : Nat) (is_online : Bool) :
    Nat → Nat → List Nat → Option (Option Nat)
  | 0, _, _ => none
  | fuel + 1, node_idx, find => do
    let nd ← tr.node node_idx
    let end_pos := if is_online ∧ nd.len = usizeMax then word.length
      else nd.pos + nd.len
    let (edge_pos, find) ← find_scan word find nd.pos end_pos
    if find.isEmpty then pure (some (edge_pos - find_len))
    else if edge_pos ≠ end_pos then pure none
    else do
      match find with
      | [] => pure none
      | f :: _ => do
        let nxt ← tr.try_to_node node_idx f
        match nxt with
        | none => pure none
        | some nxt => tr.find word find_len is_online fuel nxt find

/-- `SuffixTree::find`. -/
def SuffixTree.find (st : SuffixTree) (find : List Nat) :
    Option (Option Nat) :=
  st.tree.find st.word find.length false (find.length + 2) 0 find

/-- `OnlineSuffixTree::find`. -/
def OnlineSuffixTree.find (ost : OnlineSuffixTree) (find : List Nat) :
    Option (Option Nat) :=
  ost.tree.find ost.word find.length true (find.length + 2) 0 find

/-- The DFS loop of `impl From<SuffixTree> for SuffixArray`: an explicit
stack of `(remaining children, accumulated length)` frames; leaves emit
`pos - len` (an underflow would panic in a debug build: `none`). -/
def from_tree_loop (tr : AloneSuffixTree) :
    Nat → List (List (Nat × Nat) × Nat) → List Nat → Option (List Nat)
  | 0, _, _ => none
  | _ + 1, [], sa => some sa
  | fuel + 1, (it, len) :: stack, sa =>
    match it with
    | [] => from_tree_loop tr fuel stack sa
    | (_, i) :: restIt => do
      let nd ← tr.node i
      if nd.children.isEmpty then
        if len ≤ nd.pos then
          from_tree_loop tr fuel ((restIt, len) :: stack) (sa ++ [nd.pos - len])
        else none
      else
        from_tree_loop tr fuel
          ((nd.children, len + nd.len) :: (restIt, len) :: stack) sa

/-- `SuffixArray::from(SuffixTree)`: sentinel-append the tree's word, then
collect leaf positions by lexicographic DFS. -/
def SuffixArray.from_tree (st : SuffixTree) : Option SuffixArray := do
  let word := if st.word.getLast? = some 0 then st.word else st.word ++ [0]
  let root ← st.tree.node 0
  let sa ← from_tree_loop st.tree (4 * st.tree.nodes.length + 8)
    [(root.children, 0)] []
  pure ⟨word, sa⟩

/-! Specification-side definitions (the properties the claims state). -/

/-- The length of the longest common prefix of two byte lists. -/
def lcpLen : List Nat → List Nat → Nat
  | a :: as_, b :: bs => if a = b then lcpLen as_ bs + 1 else 0
  | _, _ => 0

/-- Adjacent suffixes strictly increase along the list. -/
def pairwiseSortedB (w : List Nat) : List Nat → Bool
  | [] => true
  | [_] => true
  | a :: b :: rest => lexLtB (w.drop a) (w.drop b) && pairwiseSortedB w (b :: rest)

/-- `sa` is the suffix array of `w` in the sense of the specification:
a permutation of `0 .. |w|-1` (expressed decidably as: right length and
every index occurs) listing the suffixes in strictly increasing
lexicographic order. -/
def isSortedSA (w sa : List Nat) : Prop :=
  sa.length = w.length
  ∧ ((List.range w.length).all (fun i => sa.contains i)) = true
  ∧ pairwiseSortedB w sa = true

instance (w sa : List Nat) : Decidable (isSortedSA w sa) :=
  inferInstanceAs (Decidable (_ ∧ _ ∧ _))

/-- The LCP array the specification describes for a word `w` and a suffix
array `sa` of it: `L[0] = 0` and `L[i]` is the longest-common-prefix
length of the adjacent suffixes `w[sa[i-1]..]` and `w[sa[i]..]`. -/
def lcp_spec (w sa : List Nat) : List Nat :=
  (List.range sa.length).map (fun i =>
    if i = 0 then 0
    else lcpLen (w.drop (sa.getD (i - 1) 0)) (w.drop (sa.getD i 0)))

/-- The value cell `i` of the Kasai loop's array holds after the text
positions `0 .. j-1` have been processed: the adjacent-suffix LCP once the
iteration of text position `sa[i-1]` has run (`sa[i-1] < j`), `0` before. -/
def kasaiCell (w sa : List Nat) (j i : Nat) : Nat :=
  if 1 ≤ i ∧ sa.getD (i - 1) 0 < j then
    lcpLen (w.drop (sa.getD (i - 1) 0)) (w.drop (sa.getD i 0))
  else 0

/-- The invariant tying `pref_len` to the next text position `j` of the
Kasai loop: it underestimates the LCP of suffix `j` and the suffix that
follows it in the suffix array. -/
def kasaiPref (w sa : List Nat) (j pref : Nat) : Prop :=
  ∀ k, sa.get? k = some j → k + 1 < sa.length →
    ∀ succ, sa.get? (k + 1) = some succ →
      pref ≤ lcpLen (w.drop j) (w.drop succ)

/-- The byte string `"word"`. -/
def wordW : List Nat := [119, 111, 114, 100]

/-- The byte string `"\0a"` (an interior NUL once the sentinel is
appended). -/
def nulA : List Nat := [0, 97]

/-- The byte string `"\x00\x02\x01\x02\x01\x02"`. -/
def zigW : List Nat := [0, 2, 1, 2, 1, 2]

/-- The byte string `"aaa"`. -/
def aaaW : List Nat := [97, 97, 97]

/-- The byte string `"mmiissiissiippii\0"` of the concrete scenario. -/
def mmiW : List Nat :=
  [109, 109, 105, 105, 115, 115, 105, 105, 115, 115, 105, 105, 112, 112,
   105, 105, 0]

/-- The suffix array the specification expects for `mmiW`. -/
def mmiSpecSA : List Nat :=
  [16, 15, 14, 10, 6, 11, 7, 3, 13, 9, 5, 2, 1, 0, 12, 8, 4]

/-- The LCP array the specification expects for `mmiW`. -/
def mmiSpecL : List Nat :=
  [0, 1, 2, 2, 1, 4, 2, 0, 1, 3, 1, 0, 1, 3, 0, 4, 2]

/-- The suffix array the code actually returns for `mmiW` (the sorted
order of its suffixes). -/
def mmiCodeSA : List Nat :=
  [16, 15, 14, 10, 6, 2, 11, 7, 3, 1, 0, 13, 12, 9, 5, 8, 4]

/-- The LCP array the code actually returns for `mmiW`. -/
def mmiCodeL : List Nat :=
  [0, 0, 1, 2, 2, 6, 1, 1, 5, 0, 1, 0, 1, 0, 3, 1, 4]

/-- Invariant of every tree the Ukkonen builders produce: the root (handle
`0`) keeps `pos = 0` and `len = 0`, and no `children` map ever points back
to the root. -/
def TreeInv (tr : AloneSuffixTree) : Prop :=
  (∃ nd, tr.nodes.get? 0 = some nd ∧ nd.pos = 0 ∧ nd.len = 0) ∧
  (∀ nd ∈ tr.nodes, ∀ p ∈ nd.children, p.2 ≠ 0)

/-- Invariant of the build state: the tree invariant plus "an active point
sitting at the root sits at word position 0". -/
def StInv (tr : AloneSuffixTree) (s : State) : Prop :=
  TreeInv tr ∧ (s.node_idx = 0 → s.edge_pos = 0)

/-! Theorems. -/

set_option maxRecDepth 4000000

/-- C1.  The claim states that for every byte string `W`,
`SuffixArray::new(W)` yields a permutation of `0..|W'|` listing the
suffixes of `W'` in strictly increasing order with `SA[0] = |W'|-1`.
The code violates it: for `W = "\0a"` (so `W' = "\0a\0"`), the returned
vector is `[0, 0, 1]` — the index `0` occurs twice, `2` never, and
`SA[0] = 0 ≠ 2` — because the SA-IS induced sort assumes the sentinel
`0x00` occurs only at the end of the word. -/
theorem c1_interior_nul_breaks_permutation :
    SuffixArray.new usizeMax nulA = .ok ⟨[0, 97, 0], [0, 0, 1]⟩ ∧
    ¬ isSortedSA [0, 97, 0] [0, 0, 1] ∧
    ([0, 0, 1] : List Nat).get? 0 ≠ some 2 := by
  decide

/-- C2.  The claim states that all four construction paths return the same
suffix array.  For `W = "\x00\x02\x01\x02\x01\x02"` the recursive builder
(`new`) and the stack builder (`new_stack`) both run to completion but
return different vectors: the top level of `suffix_array_stack` lacks the
`LEN_NAIVE_SORT` naive-sort case of `sort_lms`, and on this interior-NUL
word the naive path and the reduction path sort the LMS seeds
differently. -/
theorem c2_builders_disagree :
    SuffixArray.new usizeMax zigW =
      .ok ⟨[0, 2, 1, 2, 1, 2, 0], [0, 0, 4, 2, 5, 3, 1]⟩ ∧
    SuffixArray.new_stack usizeMax zigW =
      .ok ⟨[0, 2, 1, 2, 1, 2, 0], [2, 0, 4, 2, 5, 3, 1]⟩ ∧
    SuffixArray.new usizeMax zigW ≠ SuffixArray.new_stack usizeMax zigW := by
  decide

/-- C4.  The claim states `SA::from(ST::new(W)) = SA::new(W)` for every
`W`.  For `W = "\0a"` the suffix tree built by Ukkonen ends its terminal
phase by walking into the existing `"\0a"` edge (the embedded NUL matches
the terminator), so the tree has only two leaves and the leaf DFS yields
`[0, 1]`, while `SA::new` returns a three-entry vector. -/
theorem c4_roundtrip_fails_on_interior_nul :
    (SuffixTree.new nulA).bind SuffixArray.from_tree =
      some ⟨[0, 97, 0], [0, 1]⟩ ∧
    SuffixArray.new usizeMax nulA = .ok ⟨[0, 97, 0], [0, 0, 1]⟩ ∧
    (⟨[0, 97, 0], [0, 1]⟩ : SuffixArray) ≠ ⟨[0, 97, 0], [0, 0, 1]⟩ := by
  decide

/-- C5.  The claim states that `OnlineSuffixTree::new(); add(chunks)*;
finish()` equals `SuffixTree::new(W)` for every `W` and every chunking.
For the empty word (no chunks) they differ: `finish()` always runs the
terminator phase and so hangs a zero-length terminal leaf under the root,
while `SuffixTree::new("")` returns early with the lone root. -/
theorem c5_online_batch_differ_on_empty_word :
    OnlineSuffixTree.new.finish =
      some ⟨[], ⟨[
        { link := some 0, parent := 0, children := [(0, 1)], len := 0,
          pos := 0 },
        { link := none, parent := 0, children := [], len := 0, pos := 0 }]⟩⟩ ∧
    SuffixTree.new [] = some ⟨[], ⟨[rootNode]⟩⟩ ∧
    OnlineSuffixTree.new.finish ≠ SuffixTree.new [] := by
  decide

/-- C6.  The claim states `find_all(P)` returns exactly
`{k : W'[k..k+|P|] = P}`.  For `W = "word"` and `P = "d\0"` the pattern
occurs at `k = 3` (`W' = "word\0"`, `W'[3..5] = "d\0"`), but the
binary-search predicate of `find_pos` demands
`idx + |P| < |W'|` (strictly), which discards the occurrence that reaches
the end of the sentinel-terminated word: `find_all` returns the empty
slice and `find` returns `None`. -/
theorem c6_find_all_misses_sentinel_occurrence :
    SuffixArray.new usizeMax wordW =
      .ok ⟨[119, 111, 114, 100, 0], [4, 3, 1, 2, 0]⟩ ∧
    SuffixArray.find_all ⟨[119, 111, 114, 100, 0], [4, 3, 1, 2, 0]⟩
      [100, 0] = [] ∧
    SuffixArray.find ⟨[119, 111, 114, 100, 0], [4, 3, 1, 2, 0]⟩
      [100, 0] = none ∧
    ([119, 111, 114, 100, 0] : List Nat).drop 3 = [100, 0] := by
  decide

/-- C8 (counterexample).  The concrete scenario in the specification
expects `SA = [16, 15, 14, 10, 6, 11, 7, 3, 13, 9, 5, 2, 1, 0, 12, 8, 4]`
for `W = "mmiissiissiippii\0"`; the code returns a different vector (the
spec's vector is not even sorted by first byte: position 13 — a `p` —
precedes position 2 — an `i`). -/
theorem c8_spec_arrays_wrong :
    SuffixArray.new usizeMax mmiW = .ok ⟨mmiW, mmiCodeSA⟩ ∧
    mmiCodeSA ≠ mmiSpecSA ∧
    SuffixArray.lcp ⟨mmiW, mmiCodeSA⟩ = some mmiCodeL ∧
    mmiCodeL ≠ mmiSpecL := by
  decide

/-- C8 (amended).  For `W = "mmiissiissiippii\0"`, `SuffixArray::new`
returns `SA = [16, 15, 14, 10, 6, 2, 11, 7, 3, 1, 0, 13, 12, 9, 5, 8, 4]`
and `lcp()` returns
`L = [0, 0, 1, 2, 2, 6, 1, 1, 5, 0, 1, 0, 1, 0, 3, 1, 4]`; this `SA` is
the lexicographically sorted permutation of the suffixes of `W`. -/
theorem c8_actual_arrays :
    SuffixArray.new usizeMax mmiW = .ok ⟨mmiW, mmiCodeSA⟩ ∧
    SuffixArray.lcp ⟨mmiW, mmiCodeSA⟩ = some mmiCodeL ∧
    isSortedSA mmiW mmiCodeSA := by
  decide

/-- C9.  The claim states `SuffixTree::new(W).find(P)` returns the
smallest text position at which `P` begins.  For `W = "aaa"` and
`P = "aa"` the code returns `Some 1` although `P` begins at position `0`:
the descent ends on an edge whose `pos` label was rewritten by an
edge split during a later phase, so the position it reconstructs is an
occurrence, but not the leftmost one.  (The repository's own test oracle
`trust_find` is `str::find`, which returns 0 here.) -/
theorem c9_find_not_smallest :
    (SuffixTree.new aaaW).map (fun t => t.find [97, 97]) =
      some (some (some 1)) ∧
    (aaaW.drop 0).take 2 = [97, 97] := by
  decide

/-- C7.  Any text whose length reaches `Idx::MAX` is rejected: both
constructor entry points fail the `assert!(word.len() < T::MAX)` guard
(the spec's `BoundExceeded`) before any work is done. -/
theorem c7_bound_guard (maxIdx : Nat) (word : List Nat)
    (h : maxIdx ≤ word.length) :
    SuffixArray.new maxIdx word = .error .boundExceeded ∧
    SuffixArray.new_stack maxIdx word = .error .boundExceeded := by
  constructor
  · unfold SuffixArray.new
    rw [if_neg (by omega)]
  · unfold SuffixArray.new_stack
    rw [if_neg (by omega)]

/-- Witness for C7: `W = "a"` repeated 255 times with `Idx = u8`
(`u8::MAX = 255`): the constructors fail with `BoundExceeded`. -/
theorem c7_bound_guard_witness :
    (255 : Nat) ≤ (List.replicate 255 97).length ∧
    SuffixArray.new 255 (List.replicate 255 97) = .error .boundExceeded ∧
    SuffixArray.new_stack 255 (List.replicate 255 97) =
      .error .boundExceeded :=
  ⟨by decide, (c7_bound_guard 255 (List.replicate 255 97) (by decide)).1,
    (c7_bound_guard 255 (List.replicate 255 97) (by decide)).2⟩

/-! Lemmas for the Ukkonen tree invariant (claim C10). -/

theorem children_get_mem {l : List (Nat × Nat)} {ch v : Nat}
    (h : children_get l ch = some v) : (ch, v) ∈ l := by
  induction l with
  | nil => simp [children_get] at h
  | cons p rest ih =>
    obtain ⟨k, w⟩ := p
    unfold children_get at h
    split at h
    · rename_i hk
      cases h
      exact hk ▸ List.mem_cons_self _ _
    · exact List.mem_cons_of_mem _ (ih h)

theorem mem_children_insert {l : List (Nat × Nat)} {ch v : Nat} {p : Nat × Nat}
    (h : p ∈ children_insert l ch v) : p = (ch, v) ∨ p ∈ l := by
  induction l with
  | nil =>
    unfold children_insert at h
    simp at h
    exact Or.inl h
  | cons q rest ih =>
    obtain ⟨k, w⟩ := q
    unfold children_insert at h
    split at h
    · rcases List.mem_cons.mp h with h | h
      · exact Or.inl h
      · exact Or.inr h
    · split at h
      · rcases List.mem_cons.mp h with h | h
        · exact Or.inl h
        · exact Or.inr (List.mem_cons_of_mem _ h)
      · rcases List.mem_cons.mp h with h | h
        · exact Or.inr (h ▸ List.mem_cons_self _ _)
        · rcases ih h with h | h
          · exact Or.inl h
          · exact Or.inr (List.mem_cons_of_mem _ h)

theorem treeInv_len_pos {tr : AloneSuffixTree} (h : TreeInv tr) :
    0 < tr.nodes.length := by
  obtain ⟨nd, h0, -, -⟩ := h.1
  exact (List.get?_eq_some.mp h0).choose

/-- Master preservation lemma for `set_node`: writing a node that (at the
root) keeps `pos`/`len` and whose children never point to the root keeps
the tree invariant. -/
theorem treeInv_set_node {tr tr' : AloneSuffixTree} {i : Nat} {nd nd' : Node}
    (h : TreeInv tr) (hnd : tr.nodes.get? i = some nd)
    (hpl : i = 0 → nd'.pos = nd.pos ∧ nd'.len = nd.len)
    (hch : ∀ p ∈ nd'.children, p.2 ≠ 0)
    (hres : tr.set_node i nd' = some tr') : TreeInv tr' := by
  have hi : i < tr.nodes.length := (List.get?_eq_some.mp hnd).choose
  unfold AloneSuffixTree.set_node setChk at hres
  rw [if_pos hi] at hres
  cases hres
  constructor
  · obtain ⟨r0, h0, hp0, hl0⟩ := h.1
    by_cases h0i : i = 0
    · subst h0i
      refine ⟨nd', ?_, ?_, ?_⟩
      · show (tr.nodes.set 0 nd').get? 0 = some nd'
        exact List.get?_set_eq_of_lt nd' hi
      · rw [(hpl rfl).1]
        rw [hnd] at h0
        cases h0
        exact hp0
      · rw [(hpl rfl).2]
        rw [hnd] at h0
        cases h0
        exact hl0
    · refine ⟨r0, ?_, hp0, hl0⟩
      show (tr.nodes.set i nd').get? 0 = some r0
      rw [List.get?_set_ne nd' tr.nodes h0i]
      exact h0
  · intro m hm p hp
    rcases List.mem_or_eq_of_mem_set hm with hm | hm
    · exact h.2 m hm p hp
    · subst hm
      exact hch p hp

theorem treeInv_add_node {tr : AloneSuffixTree} {parent len pos : Nat}
    (h : TreeInv tr) :
    TreeInv (tr.add_node parent len pos).1 ∧
    (tr.add_node parent len pos).2 ≠ 0 ∧
    (tr.add_node parent len pos).1.nodes.get? 0 = tr.nodes.get? 0 := by
  have hlen : 0 < tr.nodes.length := treeInv_len_pos h
  refine ⟨⟨?_, ?_⟩, ?_, ?_⟩
  · obtain ⟨nd, h0, hp, hl⟩ := h.1
    refine ⟨nd, ?_, hp, hl⟩
    show (tr.nodes ++ [freshNode parent len pos]).get? 0 = some nd
    rw [List.get?_append hlen]
    exact h0
  · intro m hm p hp
    have hm' : m ∈ tr.nodes ++ [freshNode parent len pos] := hm
    rcases List.mem_append.mp hm' with hm'' | hm''
    · exact h.2 m hm'' p hp
    · have : m = freshNode parent len pos := by simpa using hm''
      subst this
      simp [freshNode] at hp
  · show tr.nodes.length ≠ 0
    omega
  · show (tr.nodes ++ [freshNode parent len pos]).get? 0 = tr.nodes.get? 0
    rw [List.get?_append hlen]

theorem treeInv_set_child {tr tr' : AloneSuffixTree} {i child ch : Nat}
    (h : TreeInv tr) (hc : child ≠ 0)
    (hres : tr.set_child i child ch = some tr') : TreeInv tr' := by
  unfold AloneSuffixTree.set_child at hres
  cases hnd : tr.node i with
  | none => rw [hnd] at hres; cases hres
  | some nd =>
    rw [hnd] at hres
    simp only [Option.bind_eq_bind, Option.some_bind] at hres
    refine treeInv_set_node h hnd ?_ ?_ hres
    · intro _
      exact ⟨rfl, rfl⟩
    · intro p hp
      rcases mem_children_insert hp with hp | hp
      · subst hp; exact hc
      · exact h.2 nd (List.get?_mem hnd) p hp

theorem treeInv_update_edge {tr tr' : AloneSuffixTree}
    {i parent len pos : Nat} (h : TreeInv tr) (hi : i ≠ 0)
    (hres : tr.update_edge i parent len pos = some tr') : TreeInv tr' := by
  unfold AloneSuffixTree.update_edge at hres
  cases hnd : tr.node i with
  | none => rw [hnd] at hres; cases hres
  | some nd =>
    rw [hnd] at hres
    simp only [Option.bind_eq_bind, Option.some_bind] at hres
    refine treeInv_set_node h hnd ?_ ?_ hres
    · intro hc
      exact absurd hc hi
    · intro p hp
      exact h.2 nd (List.get?_mem hnd) p hp

theorem treeInv_set_link {tr tr' : AloneSuffixTree} {i : Nat} {nd : Node}
    {lnk : Option Nat} (h : TreeInv tr) (hnd : tr.node i = some nd)
    (hres : tr.set_node i { nd with link := lnk } = some tr') :
    TreeInv tr' := by
  refine treeInv_set_node h hnd ?_ ?_ hres
  · intro _
    exact ⟨rfl, rfl⟩
  · intro p hp
    exact h.2 nd (List.get?_mem hnd) p hp

theorem treeInv_update_link {tr tr' : AloneSuffixTree} {s s' : State}
    {link : Nat} (h : TreeInv tr)
    (hres : tr.update_link s link = some (tr', s')) :
    TreeInv tr' ∧ s'.node_idx = link ∧ (link = 0 → s'.edge_pos = 0) := by
  unfold AloneSuffixTree.update_link at hres
  cases hnd : tr.node s.node_idx with
  | none => rw [hnd] at hres; cases hres
  | some nd =>
    rw [hnd] at hres
    simp only [Option.bind_eq_bind, Option.some_bind] at hres
    cases hset : tr.set_node s.node_idx { nd with link := some link } with
    | none => rw [hset] at hres; cases hres
    | some tr₁ =>
      rw [hset] at hres
      simp only [Option.some_bind] at hres
      have h₁ : TreeInv tr₁ := treeInv_set_link h hnd hset
      cases hndl : tr₁.node link with
      | none => rw [hndl] at hres; cases hres
      | some ndl =>
        rw [hndl] at hres
        simp only [Option.some_bind] at hres
        cases hres
        refine ⟨h₁, rfl, ?_⟩
        intro h0
        subst h0
        obtain ⟨r0, h0, hp0, hl0⟩ := h₁.1
        unfold AloneSuffixTree.node at hndl
        rw [h0] at hndl
        cases hndl
        simp [hp0, hl0]

theorem treeInv_split {tr tr' : AloneSuffixTree} {word : List Nat}
    {node_idx swp pl sl insert : Nat} (h : TreeInv tr) (hi : node_idx ≠ 0)
    (hres : tr.split word node_idx swp pl sl = some (tr', insert)) :
    TreeInv tr' ∧ insert ≠ 0 := by
  unfold AloneSuffixTree.split at hres
  simp only [AloneSuffixTree.add_node, Option.bind_eq_bind,
    Option.bind_eq_some] at hres
  obtain ⟨nd, hnd, ch1, hch1, tr₁, hset1, nd2, hnd2, ch2, hch2, tr₂, hset2,
    hres⟩ := hres
  have hadd : TreeInv (⟨tr.nodes ++ [freshNode nd.parent pl nd.pos]⟩ :
      AloneSuffixTree) := (@treeInv_add_node tr nd.parent pl nd.pos h).1
  have hins : tr.nodes.length ≠ 0 := by
    have := treeInv_len_pos h
    omega
  have h₁ : TreeInv tr₁ := treeInv_set_child hadd hi hset1
  have h₂ : TreeInv tr₂ := treeInv_set_child h₁ hins hset2
  obtain ⟨tr₃, hupd, hpure⟩ := hres
  simp only [Option.pure_def, Option.some.injEq, Prod.mk.injEq] at hpure
  obtain ⟨htr, hin⟩ := hpure
  subst htr
  subst hin
  exact ⟨treeInv_update_edge h₂ hi hupd, hins⟩

theorem to_node_ne_zero {tr : AloneSuffixTree} {cur ch v : Nat}
    (h : TreeInv tr) (hres : tr.to_node cur ch = some v) : v ≠ 0 := by
  unfold AloneSuffixTree.to_node AloneSuffixTree.try_to_node at hres
  simp only [Option.bind_eq_bind, Option.pure_def, Option.bind_eq_some,
    Option.some.injEq] at hres
  obtain ⟨r, ⟨nd, hnd, hr⟩, hrv⟩ := hres
  subst hr
  exact h.2 nd (List.get?_mem hnd) _ (children_get_mem hrv)

theorem skip_walk_ne_zero {tr : AloneSuffixTree} {word : List Nat} :
    ∀ {fuel link wp el link' wp' el'}, TreeInv tr →
    tr.skip_walk word fuel link wp el = some (link', wp', el') →
    link' ≠ 0 := by
  intro fuel
  induction fuel with
  | zero => intro _ _ _ _ _ _ _ hres; cases hres
  | succ fuel ih =>
    intro link wp el link' wp' el' h hres
    unfold AloneSuffixTree.skip_walk at hres
    simp only [Option.bind_eq_bind, Option.bind_eq_some] at hres
    obtain ⟨key, -, lnk, hlnk, nd, hnd, hres⟩ := hres
    split at hres
    · exact ih h hres
    · simp only [Option.pure_def, Option.some.injEq] at hres
      have : lnk = link' := by
        have := hres
        cases this
        rfl
      subst this
      exact to_node_ne_zero h hlnk

theorem node_zero_pos_len {tr : AloneSuffixTree} {nd : Node} (h : TreeInv tr)
    (hnd : tr.node 0 = some nd) : nd.pos = 0 ∧ nd.len = 0 := by
  obtain ⟨r0, h0, hp0, hl0⟩ := h.1
  unfold AloneSuffixTree.node at hnd
  rw [h0] at hnd
  cases hnd
  exact ⟨hp0, hl0⟩

/-- At the root the transfer test always sees the end of the (empty) root
edge, so a transfer that stops inside an edge cannot stop at the root, and
a successful in-edge advance cannot happen at the root either. -/
theorem stInv_try_transfer {tr : AloneSuffixTree} {word : List Nat}
    {s s' : State} {ch : Nat} {is_online : Bool} {kind : TransferKind}
    (h : StInv tr s)
    (hres : tr.try_transfer_to word s ch is_online = some (kind, s')) :
    (s'.node_idx = 0 → s'.edge_pos = 0) ∧
    (kind ≠ TransferKind.success → s' = s) ∧
    (kind = TransferKind.stopInEdge → s.node_idx ≠ 0) := by
  unfold AloneSuffixTree.try_transfer_to at hres
  cases hnd : tr.node s.node_idx with
  | none => rw [hnd] at hres; cases hres
  | some nd =>
    rw [hnd] at hres
    simp only [Option.bind_eq_bind, Option.some_bind] at hres
    have hroot : s.node_idx = 0 →
        ((is_online ∧ nd.len ≠ usizeMax ∧ s.edge_pos = nd.pos + nd.len)
          ∨ (¬ is_online ∧ s.edge_pos = nd.pos + nd.len)) := by
      intro h0
      have hpl := node_zero_pos_len h.1 (h0 ▸ hnd)
      have hep := h.2 h0
      rw [hpl.1, hpl.2, hep]
      cases is_online with
      | false => exact Or.inr (by simp)
      | true =>
        refine Or.inl (by simp [hpl.2, usizeMax])
    split at hres
    · rename_i hcond
      cases hget : children_get nd.children ch with
      | some nxt =>
        rw [hget] at hres
        simp only [Option.bind_eq_bind, Option.bind_eq_some, Option.pure_def,
          Option.some.injEq, Prod.mk.injEq] at hres
        obtain ⟨nd2, hnd2, hk, hs⟩ := hres
        refine ⟨?_, ?_, ?_⟩
        · intro h0
          rw [← hs] at h0
          exact absurd h0
            (h.1.2 nd (List.get?_mem hnd) _ (children_get_mem hget))
        · intro hne
          exact absurd hk.symm hne
        · intro hke
          rw [← hk] at hke
          cases hke
      | none =>
        rw [hget] at hres
        simp only [Option.pure_def, Option.some.injEq, Prod.mk.injEq] at hres
        obtain ⟨hk, hs⟩ := hres
        subst hs
        refine ⟨h.2, fun _ => rfl, ?_⟩
        intro hke
        rw [← hk] at hke
        cases hke
    · rename_i hcond
      have hs0 : s.node_idx ≠ 0 := by
        intro h0
        exact hcond (hroot h0)
      cases hc : word.get? s.edge_pos with
      | none => rw [hc] at hres; cases hres
      | some c =>
        rw [hc] at hres
        simp only [Option.some_bind] at hres
        split at hres
        · simp only [Option.pure_def, Option.some.injEq, Prod.mk.injEq] at hres
          obtain ⟨hk, hs⟩ := hres
          refine ⟨?_, ?_, ?_⟩
          · intro h0
            rw [← hs] at h0
            exact absurd h0 hs0
          · intro hne
            exact absurd hk.symm hne
          · intro hke
            rw [← hk] at hke
            cases hke
        · simp only [Option.pure_def, Option.some.injEq, Prod.mk.injEq] at hres
          obtain ⟨hk, hs⟩ := hres
          subst hs
          exact ⟨h.2, fun _ => rfl, fun _ => hs0⟩

theorem stInv_create_transfer {kind : TransferKind} {tr tr' : AloneSuffixTree}
    {word : List Nat} {s s' : State} {ch ch_pos : Nat} {is_online : Bool}
    (h : StInv tr s) (hk : kind = TransferKind.stopInEdge → s.node_idx ≠ 0)
    (hres : create_transfer kind tr word s ch ch_pos is_online =
      some (tr', s')) :
    TreeInv tr' ∧ (s'.node_idx = 0 → s'.edge_pos = 0) := by
  have hend : ∀ (tr₁ : AloneSuffixTree) (s₁ : State) (tr₂ : AloneSuffixTree),
      TreeInv tr₁ → (s₁.node_idx = 0 → s₁.edge_pos = 0) →
      (tr₁.add_node s₁.node_idx (if is_online then usizeMax
        else word.length - ch_pos) ch_pos).1.set_child s₁.node_idx
        (tr₁.add_node s₁.node_idx (if is_online then usizeMax
          else word.length - ch_pos) ch_pos).2 ch = some tr₂ →
      tr₂ = tr' → s₁ = s' →
      TreeInv tr' ∧ (s'.node_idx = 0 → s'.edge_pos = 0) := by
    intro tr₁ s₁ tr₂ h₁ hs₁ hsc htr hs
    have hadd := @treeInv_add_node tr₁ s₁.node_idx
      (if is_online then usizeMax else word.length - ch_pos) ch_pos h₁
    have hri : TreeInv tr₂ := treeInv_set_child hadd.1 hadd.2.1 hsc
    rw [htr] at hri
    refine ⟨hri, ?_⟩
    rw [← hs]
    exact hs₁
  cases kind with
  | stopInEdge =>
    unfold create_transfer at hres
    simp only [Option.bind_eq_bind, Option.bind_eq_some, Option.pure_def,
      Option.some.injEq, Prod.mk.injEq] at hres
    obtain ⟨nd, hnd, rest⟩ := hres
    obtain ⟨⟨tr₂, sidx⟩, hsplit, a₁, ha₁, tr₃, hsc, htr₃, hs₃⟩ := rest
    subst ha₁
    have hsp := treeInv_split h.1 (hk rfl) hsplit
    refine hend tr₂ ⟨sidx, s.edge_pos⟩ tr₃ hsp.1 ?_ hsc htr₃ hs₃
    intro h0
    exact absurd h0 hsp.2
  | stopInNode =>
    unfold create_transfer at hres
    simp only [Option.bind_eq_bind, Option.bind_eq_some, Option.pure_def,
      Option.some.injEq, Prod.mk.injEq] at hres
    obtain ⟨a₁, ha₁, tr₃, hsc, htr₃, hs₃⟩ := hres
    subst ha₁
    exact hend tr s tr₃ h.1 h.2 hsc htr₃ hs₃
  | success =>
    unfold create_transfer at hres
    simp only [Option.bind_eq_bind, Option.bind_eq_some, Option.pure_def,
      Option.some.injEq, Prod.mk.injEq] at hres
    obtain ⟨a₁, ha₁, tr₃, hsc, htr₃, hs₃⟩ := hres
    subst ha₁
    exact hend tr s tr₃ h.1 h.2 hsc htr₃ hs₃

theorem stInv_to_link {tr tr' : AloneSuffixTree} {word : List Nat}
    {s s' : State} {is_online b : Bool}
    (h : StInv tr s)
    (hres : to_link tr word s is_online = some (b, tr', s')) :
    TreeInv tr' ∧ (s'.node_idx = 0 → s'.edge_pos = 0) := by
  unfold to_link at hres
  split at hres
  · simp only [Option.pure_def, Option.some.injEq, Prod.mk.injEq] at hres
    obtain ⟨-, htr, hs⟩ := hres
    rw [← htr, ← hs]
    exact ⟨h.1, h.2⟩
  · rename_i hs0
    simp only [Option.bind_eq_bind, Option.bind_eq_some] at hres
    obtain ⟨nd, hnd, hres⟩ := hres
    split at hres
    · rename_i link hlk
      simp only [Option.bind_eq_bind, Option.bind_eq_some, Option.pure_def,
        Option.some.injEq, Prod.mk.injEq] at hres
      obtain ⟨ndl, hndl, -, htr, hs⟩ := hres
      rw [← htr, ← hs]
      refine ⟨h.1, ?_⟩
      intro h0
      simp only at h0
      subst h0
      have := node_zero_pos_len h.1 hndl
      simp [this.1, this.2]
    · rename_i hlk
      split at hres
      · simp only [Option.bind_eq_bind, Option.bind_eq_some, Option.pure_def,
          Option.some.injEq, Prod.mk.injEq] at hres
        obtain ⟨tr₁, hset, -, htr, hs⟩ := hres
        rw [← htr, ← hs]
        refine ⟨treeInv_set_link h.1 hnd hset, ?_⟩
        intro _
        rfl
      · simp only [Option.bind_eq_bind, Option.bind_eq_some] at hres
        obtain ⟨ndp, hndp, linkStart, hlinkStart, ⟨link₁, wp₁, el₁⟩, hwalk,
          ndl, hndl, hres⟩ := hres
        have hlk1 : link₁ ≠ 0 := skip_walk_ne_zero h.1 hwalk
        split at hres
        · simp only [Option.bind_eq_some, Option.pure_def,
            Option.some.injEq, Prod.mk.injEq] at hres
          obtain ⟨⟨tr₂, s₂⟩, hupd, -, htr, hs⟩ := hres
          have := treeInv_update_link h.1 hupd
          rw [← htr, ← hs]
          refine ⟨this.1, ?_⟩
          intro h0
          rw [this.2.1] at h0
          exact absurd h0 hlk1
        · simp only [Option.bind_eq_bind, Option.bind_eq_some,
            Option.pure_def, Option.some.injEq, Prod.mk.injEq] at hres
          obtain ⟨⟨tr₂, ins⟩, hsplit, ⟨tr₃, s₃⟩, hupd, -, htr, hs⟩ := hres
          have hsp := treeInv_split h.1 hlk1 hsplit
          have := treeInv_update_link hsp.1 hupd
          rw [← htr, ← hs]
          refine ⟨this.1, ?_⟩
          intro h0
          rw [this.2.1] at h0
          exact absurd h0 hsp.2

theorem stInv_iter {tr tr' : AloneSuffixTree} {word : List Nat}
    {s s' : State} {ch ch_pos : Nat} {is_online b : Bool}
    (h : StInv tr s)
    (hres : ukkonen_iter tr word s ch ch_pos is_online = some (b, tr', s')) :
    StInv tr' s' := by
  unfold ukkonen_iter at hres
  simp only [Option.bind_eq_bind, Option.bind_eq_some] at hres
  obtain ⟨⟨kind, s₁⟩, htt, hres⟩ := hres
  have htt' := stInv_try_transfer h htt
  cases kind with
  | success =>
    simp only [Option.pure_def, Option.some.injEq, Prod.mk.injEq] at hres
    obtain ⟨-, htr, hs⟩ := hres
    rw [← htr, ← hs]
    exact ⟨h.1, htt'.1⟩
  | stopInNode =>
    simp only [Option.bind_eq_some] at hres
    obtain ⟨⟨tr₁, s₂⟩, hct, hres⟩ := hres
    have hs₁ : s₁ = s := htt'.2.1 (by intro hc; cases hc)
    subst hs₁
    have hct' := stInv_create_transfer h (fun hc => by cases hc) hct
    exact stInv_to_link ⟨hct'.1, hct'.2⟩ hres
  | stopInEdge =>
    simp only [Option.bind_eq_some] at hres
    obtain ⟨⟨tr₁, s₂⟩, hct, hres⟩ := hres
    have hs₁ : s₁ = s := htt'.2.1 (by intro hc; cases hc)
    subst hs₁
    have hct' := stInv_create_transfer h (fun _ => htt'.2.2 rfl) hct
    exact stInv_to_link ⟨hct'.1, hct'.2⟩ hres

theorem stInv_phase {tr tr' : AloneSuffixTree} {word : List Nat}
    {s s' : State} {ch ch_pos : Nat} {is_online : Bool} :
    ∀ {fuel : Nat}, StInv tr s →
    ukkonen_phase tr word s ch ch_pos is_online fuel = some (tr', s') →
    StInv tr' s' := by
  intro fuel
  induction fuel generalizing tr s with
  | zero => intro _ hres; cases hres
  | succ fuel ih =>
    intro h hres
    unfold ukkonen_phase at hres
    simp only [Option.bind_eq_bind, Option.bind_eq_some] at hres
    obtain ⟨⟨again, tr₁, s₁⟩, hit, hres⟩ := hres
    have h₁ := stInv_iter h hit
    cases again with
    | true => exact ih h₁ hres
    | false =>
      simp only [Option.pure_def, Option.some.injEq, Prod.mk.injEq] at hres
      obtain ⟨rfl, rfl⟩ := hres
      exact h₁

theorem stInv_phases {word : List Nat} {is_online : Bool} :
    ∀ {chunk : List Nat} {i : Nat} {tr tr' : AloneSuffixTree} {s s' : State},
    StInv tr s →
    ukkonen_phases word is_online chunk i tr s = some (tr', s') →
    StInv tr' s' := by
  intro chunk
  induction chunk with
  | nil =>
    intro i tr tr' s s' h hres
    unfold ukkonen_phases at hres
    simp only [Option.some.injEq, Prod.mk.injEq] at hres
    obtain ⟨htr, hs⟩ := hres
    rw [← htr, ← hs]
    exact h
  | cons ch rest ih =>
    intro i tr tr' s s' h hres
    unfold ukkonen_phases at hres
    simp only [Option.bind_eq_bind, Option.bind_eq_some] at hres
    obtain ⟨⟨tr₁, s₁⟩, hph, hres⟩ := hres
    exact ih (stInv_phase h hph) hres

theorem stInv_init : StInv ⟨[rootNode]⟩ ⟨0, 0⟩ := by
  refine ⟨⟨⟨rootNode, rfl, rfl, rfl⟩, ?_⟩, fun _ => rfl⟩
  intro nd hnd p hp
  have : nd = rootNode := by simpa using hnd
  subst this
  simp [rootNode] at hp

theorem treeInv_suffixTree_new {w : List Nat} {t : SuffixTree}
    (hres : SuffixTree.new w = some t) : TreeInv t.tree := by
  unfold SuffixTree.new at hres
  split at hres
  · simp only [Option.some.injEq] at hres
    rw [← hres]
    exact stInv_init.1
  · simp only [Option.bind_eq_bind, Option.bind_eq_some] at hres
    obtain ⟨⟨tr₁, s₁⟩, hph, hres⟩ := hres
    obtain ⟨⟨tr₂, s₂⟩, hph2, hres⟩ := hres
    simp only [Option.pure_def, Option.some.injEq] at hres
    rw [← hres]
    exact (stInv_phase (stInv_phases stInv_init hph) hph2).1

theorem treeInv_online_add {w : List Nat} {ot : OnlineSuffixTree}
    (hres : OnlineSuffixTree.new.add w = some ot) : TreeInv ot.tree := by
  unfold OnlineSuffixTree.add at hres
  simp only [Option.bind_eq_bind, Option.bind_eq_some] at hres
  obtain ⟨⟨tr₁, s₁⟩, hph, hres⟩ := hres
  simp only [Option.pure_def, Option.some.injEq] at hres
  rw [← hres]
  exact (stInv_phases stInv_init hph).1

theorem find_empty_of_treeInv {tr : AloneSuffixTree} {word : List Nat}
    {is_online : Bool} {fuel : Nat} (h : TreeInv tr) :
    tr.find word 0 is_online (fuel + 1) 0 [] = some (some 0) := by
  obtain ⟨nd, hnd, hp, hl⟩ := h.1
  unfold AloneSuffixTree.find
  show ((tr.nodes.get? 0).bind fun nd => _) = _
  rw [hnd]
  simp only [Option.some_bind]
  have hcond : ¬ (is_online = true ∧ nd.len = usizeMax) := by
    intro hc
    rw [hl] at hc
    exact absurd hc.2.symm (by decide)
  rw [if_neg hcond]
  simp [find_scan, hp, hl]

/-- C10.  On the empty pattern, the suffix-array queries return "nothing"
(`find` is `None`, `find_all` the empty slice, and likewise the `_big`
variants for any LCP argument), while the tree queries `SuffixTree::find`
and `OnlineSuffixTree::find` return `Some 0`. -/
theorem c10_empty_pattern :
    (∀ (maxIdx : Nat) (w : List Nat) (A : SuffixArray),
      SuffixArray.new maxIdx w = .ok A →
      A.find [] = none ∧ A.find_all [] = [] ∧
      ∀ lcpA : List Nat, A.find_big lcpA [] = some none ∧
        A.find_all_big lcpA [] = some []) ∧
    (∀ (w : List Nat) (t : SuffixTree), SuffixTree.new w = some t →
      t.find [] = some (some 0)) ∧
    (∀ (w : List Nat) (ot : OnlineSuffixTree),
      OnlineSuffixTree.new.add w = some ot → ot.find [] = some (some 0)) := by
  refine ⟨?_, ?_, ?_⟩
  · intro maxIdx w A _
    exact ⟨rfl, rfl, fun lcpA => ⟨rfl, rfl⟩⟩
  · intro w t h
    exact find_empty_of_treeInv (treeInv_suffixTree_new h)
  · intro w ot h
    exact find_empty_of_treeInv (treeInv_online_add h)

/-- Witness for C10 at the empty word: both constructors succeed and the
six query results are as stated. -/
theorem c10_empty_pattern_witness :
    SuffixArray.find ⟨[], []⟩ [] = none ∧
    SuffixArray.find_all ⟨[], []⟩ [] = [] ∧
    SuffixArray.find_big ⟨[], []⟩ [] [] = some none ∧
    SuffixArray.find_all_big ⟨[], []⟩ [] [] = some [] ∧
    SuffixTree.find ⟨[], ⟨[rootNode]⟩⟩ [] = some (some 0) ∧
    OnlineSuffixTree.find ⟨[], ⟨[rootNode]⟩, ⟨0, 0⟩⟩ [] = some (some 0) :=
  ⟨(c10_empty_pattern.1 usizeMax [] ⟨[], []⟩ rfl).1,
   (c10_empty_pattern.1 usizeMax [] ⟨[], []⟩ rfl).2.1,
   ((c10_empty_pattern.1 usizeMax [] ⟨[], []⟩ rfl).2.2 []).1,
   ((c10_empty_pattern.1 usizeMax [] ⟨[], []⟩ rfl).2.2 []).2,
   c10_empty_pattern.2.1 [] ⟨[], ⟨[rootNode]⟩⟩ rfl,
   c10_empty_pattern.2.2 [] ⟨[], ⟨[rootNode]⟩, ⟨0, 0⟩⟩ rfl⟩

/-! C3: correctness of `SuffixArray::lcp` (Kasai) on sorted suffix
arrays. -/

/-! Order facts about `lexLtB` (the slice comparison of the source) and
`lcpLen`, used to verify the Kasai loop of `SuffixArray::lcp`. -/

theorem lexLtB_nil_right (a : List Nat) : lexLtB a [] = false := by
  cases a <;> rfl

theorem lexLtB_nil_cons (b : Nat) (bs : List Nat) : lexLtB [] (b :: bs) = true := rfl

theorem lexLtB_cons_cons (a b : Nat) (as_ bs : List Nat) :
    lexLtB (a :: as_) (b :: bs) =
      if a < b then true else if b < a then false else lexLtB as_ bs := rfl

theorem lexLtB_iff_lex : ∀ (a b : List Nat),
    lexLtB a b = true ↔ List.Lex (· < ·) a b
  | a, [] => by
    rw [lexLtB_nil_right]
    constructor
    · intro h; exact absurd h (by decide)
    · intro h; exact absurd h (List.Lex.not_nil_right _ _)
  | [], b :: bs => by
    rw [lexLtB_nil_cons]
    constructor
    · intro _; exact List.Lex.nil
    · intro _; rfl
  | a :: as_, b :: bs => by
    rw [lexLtB_cons_cons]
    rcases Nat.lt_trichotomy a b with h | h | h
    · rw [if_pos h]
      constructor
      · intro _; exact List.Lex.rel h
      · intro _; rfl
    · subst h
      rw [if_neg (Nat.lt_irrefl a), if_neg (Nat.lt_irrefl a)]
      rw [List.Lex.cons_iff]
      exact lexLtB_iff_lex as_ bs
    · rw [if_neg (Nat.lt_asymm h), if_pos h]
      constructor
      · intro hfalse; exact absurd hfalse (by decide)
      · intro hlex
        cases hlex with
        | rel h' => exact absurd h' (Nat.lt_asymm h)
        | cons h' => exact absurd h (Nat.lt_irrefl _)

theorem lexLtB_trans {a b c : List Nat} (h₁ : lexLtB a b = true)
    (h₂ : lexLtB b c = true) : lexLtB a c = true :=
  (lexLtB_iff_lex a c).2
    (trans_of (List.Lex (· < ·)) ((lexLtB_iff_lex a b).1 h₁)
      ((lexLtB_iff_lex b c).1 h₂))

theorem lexLtB_irrefl (a : List Nat) : lexLtB a a ≠ true :=
  fun h => absurd ((lexLtB_iff_lex a a).1 h) (irrefl_of (List.Lex (· < ·)) a)

theorem lexLtB_asymm {a b : List Nat} (h₁ : lexLtB a b = true)
    (h₂ : lexLtB b a = true) : False :=
  lexLtB_irrefl a (lexLtB_trans h₁ h₂)

theorem lcpLen_nil_left (b : List Nat) : lcpLen [] b = 0 := by
  cases b <;> rfl

theorem lcpLen_nil_right (a : List Nat) : lcpLen a [] = 0 := by
  cases a <;> rfl

theorem lcpLen_cons (x y : Nat) (a b : List Nat) :
    lcpLen (x :: a) (y :: b) = if x = y then lcpLen a b + 1 else 0 := rfl

theorem lcpLen_le_left : ∀ (a b : List Nat), lcpLen a b ≤ a.length
  | [], b => by rw [lcpLen_nil_left]; exact Nat.zero_le _
  | _ :: _, [] => by rw [lcpLen_nil_right]; exact Nat.zero_le _
  | x :: a, y :: b => by
    rw [lcpLen_cons]
    by_cases h : x = y
    · rw [if_pos h]
      exact Nat.succ_le_succ (lcpLen_le_left a b)
    · rw [if_neg h]
      exact Nat.zero_le _

theorem lcpLen_le_right : ∀ (a b : List Nat), lcpLen a b ≤ b.length
  | [], b => by rw [lcpLen_nil_left]; exact Nat.zero_le _
  | _ :: _, [] => by rw [lcpLen_nil_right]; exact Nat.zero_le _
  | x :: a, y :: b => by
    rw [lcpLen_cons]
    by_cases h : x = y
    · rw [if_pos h]
      exact Nat.succ_le_succ (lcpLen_le_right a b)
    · rw [if_neg h]
      exact Nat.zero_le _

theorem lcpLen_get_lt : ∀ (a b : List Nat) (i : Nat), i < lcpLen a b →
    ∃ c, a.get? i = some c ∧ b.get? i = some c
  | [], b, i, h => by
    rw [lcpLen_nil_left] at h
    exact absurd h (Nat.not_lt_zero i)
  | _ :: _, [], i, h => by
    rw [lcpLen_nil_right] at h
    exact absurd h (Nat.not_lt_zero i)
  | x :: a, y :: b, i, h => by
    rw [lcpLen_cons] at h
    by_cases hxy : x = y
    · rw [if_pos hxy] at h
      cases i with
      | zero => exact ⟨x, rfl, by rw [List.get?_cons_zero, hxy]⟩
      | succ i =>
        have h' : i < lcpLen a b := Nat.lt_of_succ_lt_succ h
        obtain ⟨c, hc₁, hc₂⟩ := lcpLen_get_lt a b i h'
        exact ⟨c, hc₁, hc₂⟩
    · rw [if_neg hxy] at h
      exact absurd h (Nat.not_lt_zero i)

theorem lcpLen_get_ne : ∀ (a b : List Nat) (x y : Nat),
    a.get? (lcpLen a b) = some x → b.get? (lcpLen a b) = some y → x ≠ y
  | [], _, x, y, ha, _ => by
    rw [lcpLen_nil_left] at ha
    exact absurd ha (by simp)
  | _ :: _, [], x, y, _, hb => by
    rw [lcpLen_nil_right] at hb
    exact absurd hb (by simp)
  | a :: as_, b :: bs, x, y, ha, hb => by
    by_cases hab : a = b
    · rw [lcpLen_cons, if_pos hab] at ha hb
      rw [List.get?_cons_succ] at ha hb
      exact lcpLen_get_ne as_ bs x y ha hb
    · rw [lcpLen_cons, if_neg hab] at ha hb
      rw [List.get?_cons_zero] at ha hb
      injection ha with ha'
      injection hb with hb'
      subst ha'
      subst hb'
      exact hab

theorem lcpLen_sandwich : ∀ (a b c : List Nat), lexLtB a b = true →
    lexLtB b c = true → lcpLen a c ≤ lcpLen a b
  | [], b, c, _, _ => by
    rw [lcpLen_nil_left, lcpLen_nil_left]
  | _ :: _, b, [], _, h₂ => by
    rw [lexLtB_nil_right] at h₂
    exact absurd h₂ (by decide)
  | _ :: _, [], _ :: _, h₁, _ => by
    rw [lexLtB_nil_right] at h₁
    exact absurd h₁ (by decide)
  | x :: a, y :: b, z :: c, h₁, h₂ => by
    rw [lexLtB_cons_cons] at h₁ h₂
    rw [lcpLen_cons, lcpLen_cons]
    by_cases hxz : x = z
    · subst hxz
      rcases Nat.lt_trichotomy x y with hxy | hxy | hxy
      · rw [if_neg (Nat.lt_asymm hxy), if_pos hxy] at h₂
        exact absurd h₂ (by decide)
      · subst hxy
        rw [if_neg (Nat.lt_irrefl x), if_neg (Nat.lt_irrefl x)] at h₁ h₂
        rw [if_pos rfl, if_pos rfl]
        exact Nat.succ_le_succ (lcpLen_sandwich a b c h₁ h₂)
      · rw [if_neg (Nat.lt_asymm hxy), if_pos hxy] at h₁
        exact absurd h₁ (by decide)
    · rw [if_neg hxz]
      exact Nat.zero_le _

theorem lcpLen_pos_parts : ∀ (a b : List Nat), 0 < lcpLen a b →
    ∃ x a' b', a = x :: a' ∧ b = x :: b' ∧ lcpLen a b = lcpLen a' b' + 1
  | [], b, h => by
    rw [lcpLen_nil_left] at h
    exact absurd h (Nat.lt_irrefl 0)
  | _ :: _, [], h => by
    rw [lcpLen_nil_right] at h
    exact absurd h (Nat.lt_irrefl 0)
  | x :: a, y :: b, h => by
    by_cases hxy : x = y
    · subst hxy
      exact ⟨x, a, b, rfl, rfl, by rw [lcpLen_cons, if_pos rfl]⟩
    · rw [lcpLen_cons, if_neg hxy] at h
      exact absurd h (Nat.lt_irrefl 0)

theorem getD_of_get? {l : List Nat} {i v : Nat} (h : l.get? i = some v) :
    l.getD i 0 = v := by
  rw [List.getD_eq_get?, h]
  rfl

theorem get?_some_lt {l : List Nat} {i v : Nat} (h : l.get? i = some v) :
    i < l.length := by
  by_contra hge
  push_neg at hge
  rw [List.get?_eq_none.2 hge] at h
  exact Option.noConfusion h

theorem get?_replicate_lt {n i a : Nat} (h : i < n) :
    (List.replicate n a).get? i = some a := by
  rw [List.get?_eq_get (by rw [List.length_replicate]; exact h)]
  rw [List.get_replicate]

theorem pairwiseSortedB_adj : ∀ (w sa : List Nat), pairwiseSortedB w sa = true →
    ∀ i, i + 1 < sa.length →
      lexLtB (w.drop (sa.getD i 0)) (w.drop (sa.getD (i + 1) 0)) = true
  | _, [], _, i, hi => absurd hi (by simp)
  | _, [_], _, i, hi => absurd hi (by simp)
  | w, a :: b :: rest, h, i, hi => by
    rw [pairwiseSortedB, Bool.and_eq_true] at h
    obtain ⟨h₁, h₂⟩ := h
    cases i with
    | zero => exact h₁
    | succ i =>
      rw [List.getD_cons_succ, List.getD_cons_succ]
      apply pairwiseSortedB_adj w (b :: rest) h₂ i
      simp only [List.length_cons] at hi ⊢
      omega

theorem pairwiseSortedB_lt (w sa : List Nat) (h : pairwiseSortedB w sa = true) :
    ∀ j i, i < j → j < sa.length →
      lexLtB (w.drop (sa.getD i 0)) (w.drop (sa.getD j 0)) = true := by
  intro j
  induction j with
  | zero => intro i hij _; exact absurd hij (Nat.not_lt_zero i)
  | succ j ih =>
    intro i hij hlen
    rcases Nat.lt_or_ge i j with hlt | hge
    · exact lexLtB_trans (ih i hlt (Nat.lt_of_succ_lt hlen))
        (pairwiseSortedB_adj w sa h j hlen)
    · have hieq : i = j := Nat.le_antisymm (Nat.le_of_lt_succ hij) hge
      subst hieq
      exact pairwiseSortedB_adj w sa h i hlen

theorem isSortedSA_perm {w sa : List Nat} (h : isSortedSA w sa) :
    sa.Perm (List.range w.length) := by
  obtain ⟨hlen, hall, _⟩ := h
  have hsub : List.range w.length ⊆ sa := by
    intro x hx
    have hc := List.all_eq_true.1 hall x hx
    simpa using hc
  exact ((List.subperm_of_subset (List.nodup_range w.length) hsub).perm_of_length_le
    (le_of_eq (by rw [hlen, List.length_range]))).symm

theorem isSortedSA_nodup {w sa : List Nat} (h : isSortedSA w sa) : sa.Nodup :=
  (isSortedSA_perm h).nodup_iff.2 (List.nodup_range _)

theorem isSortedSA_mem_lt {w sa : List Nat} (h : isSortedSA w sa) :
    ∀ v ∈ sa, v < w.length := by
  intro v hv
  have hm := (isSortedSA_perm h).mem_iff.1 hv
  simpa using hm

theorem isSortedSA_lt_mem {w sa : List Nat} (h : isSortedSA w sa) :
    ∀ v, v < w.length → v ∈ sa := fun v hv =>
  (isSortedSA_perm h).mem_iff.2 (List.mem_range.2 hv)

theorem sa_rank_unique {w sa : List Nat} (h : isSortedSA w sa) {i k v : Nat}
    (hi : sa.get? i = some v) (hk : sa.get? k = some v) : i = k :=
  List.get?_inj (get?_some_lt hi) (isSortedSA_nodup h) (by rw [hi, hk])

theorem count_eq_spec : ∀ (fuel : Nat) (a b : List Nat) (acc : Nat),
    acc ≤ lcpLen a b → a.length - acc < fuel →
    count_eq a b fuel acc = lcpLen a b
  | 0, a, b, acc, hacc, hfuel => by
    have hle := lcpLen_le_left a b
    omega
  | fuel + 1, a, b, acc, hacc, hfuel => by
    rcases Nat.lt_or_ge acc (lcpLen a b) with hlt | hge
    · obtain ⟨c, hga, hgb⟩ := lcpLen_get_lt a b acc hlt
      have hacclen : acc < a.length := Nat.lt_of_lt_of_le hlt (lcpLen_le_left a b)
      simp only [count_eq, hga, hgb, if_pos rfl]
      exact count_eq_spec fuel a b (acc + 1) hlt (by omega)
    · have heq : acc = lcpLen a b := Nat.le_antisymm hacc hge
      subst heq
      cases hga : a.get? (lcpLen a b) with
      | none => cases hgb : b.get? (lcpLen a b) <;> simp only [count_eq, hga, hgb]
      | some x =>
        cases hgb : b.get? (lcpLen a b) with
        | none => simp only [count_eq, hga, hgb]
        | some y =>
          have hne := lcpLen_get_ne a b x y hga hgb
          simp only [count_eq, hga, hgb, if_neg hne]

theorem foldlM_setChk : ∀ (l : List (Nat × Nat)) (R₀ : List Nat),
    (∀ p ∈ l, p.2 < R₀.length) → (l.map Prod.snd).Nodup →
    ∃ R, l.foldlM (fun acc ix => setChk acc ix.2 (ix.1 + 1)) R₀ = some R ∧
      R.length = R₀.length ∧
      (∀ p ∈ l, R.get? p.2 = some (p.1 + 1)) ∧
      (∀ q, q ∉ l.map Prod.snd → R.get? q = R₀.get? q)
  | [], R₀, _, _ =>
    ⟨R₀, rfl, rfl, fun p hp => absurd hp (List.not_mem_nil p), fun _ _ => rfl⟩
  | (i, x) :: rest, R₀, hbound, hnd => by
    have hx : x < R₀.length := hbound (i, x) (List.mem_cons_self _ _)
    have hset : setChk R₀ x (i + 1) = some (R₀.set x (i + 1)) := by
      rw [setChk, if_pos hx]
    have hnd' : (rest.map Prod.snd).Nodup := by
      simp only [List.map_cons, List.nodup_cons] at hnd
      exact hnd.2
    have hxnot : x ∉ rest.map Prod.snd := by
      simp only [List.map_cons, List.nodup_cons] at hnd
      exact hnd.1
    have hbound' : ∀ p ∈ rest, p.2 < (R₀.set x (i + 1)).length := by
      intro p hp
      rw [List.length_set]
      exact hbound p (List.mem_cons_of_mem _ hp)
    obtain ⟨R, hfold, hlen, hmem, hout⟩ :=
      foldlM_setChk rest (R₀.set x (i + 1)) hbound' hnd'
    refine ⟨R, ?_, ?_, ?_, ?_⟩
    · rw [List.foldlM_cons, hset]
      exact hfold
    · rw [hlen, List.length_set]
    · intro p hp
      rcases List.mem_cons.1 hp with heq | hmem'
      · subst heq
        show R.get? x = some (i + 1)
        rw [hout x hxnot, List.get?_set_eq_of_lt _ hx]
      · exact hmem p hmem'
    · intro q hq
      rw [List.map_cons] at hq
      have hq1 : q ≠ x := fun he =>
        hq (by rw [he]; exact List.mem_cons_self x (rest.map Prod.snd))
      have hq2 : q ∉ rest.map Prod.snd := fun hm => hq (List.mem_cons_of_mem x hm)
      rw [hout q hq2, List.get?_set_ne _ _ (fun he => hq1 he.symm)]

theorem build_sa_idx_spec {w sa : List Nat} (h : isSortedSA w sa) :
    ∃ R, build_sa_idx sa = some R ∧ R.length = sa.length ∧
      ∀ k v, sa.get? k = some v → R.get? v = some (k + 1) := by
  have hlen1 : sa.length = w.length := h.1
  have hnd : (sa.enum.map Prod.snd).Nodup := by
    rw [List.enum_map_snd]
    exact isSortedSA_nodup h
  have hbound : ∀ p ∈ sa.enum, p.2 < (List.replicate sa.length 0).length := by
    intro p hp
    rw [List.length_replicate]
    have hv : p.2 ∈ sa := List.get?_mem (List.mem_enum_iff_get?.1 hp)
    have hvw := isSortedSA_mem_lt h p.2 hv
    omega
  obtain ⟨R, hfold, hlen, hmem, _⟩ := foldlM_setChk sa.enum _ hbound hnd
  refine ⟨R, ?_, ?_, ?_⟩
  · rw [build_sa_idx]
    exact hfold
  · rw [hlen, List.length_replicate]
  · intro k v hkv
    exact hmem (k, v) (List.mem_enum_iff_get?.2 hkv)

theorem kasai_step {w sa : List Nat} (h : isSortedSA w sa)
    {j q rj : Nat} (hrj : sa.get? rj = some j) (hq : sa.get? (rj + 1) = some q) :
    kasaiPref w sa (j + 1) (lcpLen (w.drop j) (w.drop q) - 1) := by
  intro k hk hk1 succ hsucc
  rcases Nat.lt_or_ge (lcpLen (w.drop j) (w.drop q)) 2 with hsmall | hbig
  · have hz : lcpLen (w.drop j) (w.drop q) - 1 = 0 := by omega
    rw [hz]
    exact Nat.zero_le _
  · have hjw : j < w.length := isSortedSA_mem_lt h j (List.get?_mem hrj)
    have hqw : q < w.length := isSortedSA_mem_lt h q (List.get?_mem hq)
    have hpos : 0 < lcpLen (w.drop j) (w.drop q) := by omega
    obtain ⟨c, A', B', hA, hB, hstep⟩ := lcpLen_pos_parts _ _ hpos
    have htailA : A' = w.drop (j + 1) := by
      have h1 := hA.symm.trans (List.drop_eq_getElem_cons hjw)
      injection h1 with _ h2
    have htailB : B' = w.drop (q + 1) := by
      have h1 := hB.symm.trans (List.drop_eq_getElem_cons hqw)
      injection h1 with _ h2
    have hq1w : q + 1 < w.length := by
      have hle := lcpLen_le_right (w.drop j) (w.drop q)
      rw [List.length_drop] at hle
      omega
    have hrj1lt : rj + 1 < sa.length := get?_some_lt hq
    have hadjx : lexLtB (w.drop j) (w.drop q) = true := by
      have hp := pairwiseSortedB_lt w sa h.2.2 (rj + 1) rj (Nat.lt_succ_self rj) hrj1lt
      rwa [getD_of_get? hrj, getD_of_get? hq] at hp
    have htail : lexLtB (w.drop (j + 1)) (w.drop (q + 1)) = true := by
      rw [hA, hB, lexLtB_cons_cons, if_neg (Nat.lt_irrefl c),
        if_neg (Nat.lt_irrefl c)] at hadjx
      rwa [htailA, htailB] at hadjx
    obtain ⟨mq, hmq⟩ := List.mem_iff_get?.1 (isSortedSA_lt_mem h (q + 1) hq1w)
    have hkm : k < mq := by
      rcases Nat.lt_trichotomy k mq with hlt | heq | hgt
      · exact hlt
      · exfalso
        rw [heq] at hk
        have hjq1 : j + 1 = q + 1 := Option.some.inj (hk.symm.trans hmq)
        have hjq : j = q := by omega
        rw [hjq] at hadjx
        exact lexLtB_irrefl _ hadjx
      · exfalso
        have hp := pairwiseSortedB_lt w sa h.2.2 k mq hgt (get?_some_lt hk)
        rw [getD_of_get? hmq, getD_of_get? hk] at hp
        exact lexLtB_asymm htail hp
    rcases Nat.lt_or_ge (k + 1) mq with hlt | hge
    · have h1 : lexLtB (w.drop (j + 1)) (w.drop succ) = true := by
        have hp := pairwiseSortedB_lt w sa h.2.2 (k + 1) k (Nat.lt_succ_self k) hk1
        rwa [getD_of_get? hk, getD_of_get? hsucc] at hp
      have h2 : lexLtB (w.drop succ) (w.drop (q + 1)) = true := by
        have hp := pairwiseSortedB_lt w sa h.2.2 mq (k + 1) hlt (get?_some_lt hmq)
        rwa [getD_of_get? hsucc, getD_of_get? hmq] at hp
      have hs := lcpLen_sandwich (w.drop (j + 1)) (w.drop succ) (w.drop (q + 1)) h1 h2
      rw [hstep, htailA, htailB]
      omega
    · have heq : mq = k + 1 := by omega
      rw [heq] at hmq
      have hsq : succ = q + 1 := Option.some.inj (hsucc.symm.trans hmq)
      rw [hsq, hstep, htailA, htailB]
      omega

theorem kasaiCell_succ_ne {w sa : List Nat} (h : isSortedSA w sa) {j rj : Nat}
    (hrj : sa.get? rj = some j) {i : Nat} (hi : i < w.length)
    (hne : i ≠ rj + 1) :
    kasaiCell w sa (j + 1) i = kasaiCell w sa j i := by
  have hlen1 : sa.length = w.length := h.1
  rw [kasaiCell, kasaiCell]
  by_cases hc : 1 ≤ i ∧ sa.getD (i - 1) 0 < j
  · rw [if_pos hc, if_pos ⟨hc.1, Nat.lt_succ_of_lt hc.2⟩]
  · have hnc : ¬(1 ≤ i ∧ sa.getD (i - 1) 0 < j + 1) := by
      intro hc2
      apply hc
      refine ⟨hc2.1, ?_⟩
      rcases Nat.lt_or_ge (sa.getD (i - 1) 0) j with hlt | hge2
      · exact hlt
      · exfalso
        have h1i : 1 ≤ i := hc2.1
        have hj2 : sa.getD (i - 1) 0 = j := by omega
        have hi1 : i - 1 < sa.length := by omega
        obtain ⟨v, hv⟩ : ∃ v, sa.get? (i - 1) = some v := ⟨_, List.get?_eq_get hi1⟩
        have hvj : v = j := by
          rw [getD_of_get? hv] at hj2
          exact hj2
        rw [hvj] at hv
        have hieq : i - 1 = rj := sa_rank_unique h hv hrj
        omega
    rw [if_neg hnc, if_neg hc]

theorem lcp_loop_cons_step {w sa : List Nat} {saLen x : Nat}
    {rest arr : List Nat} {pref : Nat}
    (hxn : x ≠ saLen) (hx0 : x ≠ 0)
    {l r : Nat} (hl : sa.get? (x - 1) = some l) (hr : sa.get? x = some r)
    (hlw : l ≤ w.length) (hrw : r ≤ w.length)
    {arr' : List Nat}
    (hset : setChk arr x (count_eq (w.drop l) (w.drop r) (w.length + 1) pref)
      = some arr') :
    lcp_loop w sa saLen (x :: rest) arr pref
      = lcp_loop w sa saLen rest arr'
        (if count_eq (w.drop l) (w.drop r) (w.length + 1) pref > 0
         then count_eq (w.drop l) (w.drop r) (w.length + 1) pref - 1
         else count_eq (w.drop l) (w.drop r) (w.length + 1) pref) := by
  simp only [lcp_loop]
  rw [if_neg hxn, if_neg hx0, hl, hr]
  simp only [Option.bind_eq_bind, Option.some_bind]
  rw [if_pos ⟨hlw, hrw⟩]
  rw [hset]
  simp only [Option.some_bind]

theorem lcp_loop_spec (w sa R : List Nat) (h : isSortedSA w sa)
    (hR : ∀ k v, sa.get? k = some v → R.get? v = some (k + 1))
    (hRlen : R.length = sa.length) :
    ∀ (rest : List Nat), ∀ (j : Nat), rest = R.drop j → j ≤ w.length →
    ∀ (arr : List Nat), arr.length = w.length →
    (∀ i, i < w.length → arr.get? i = some (kasaiCell w sa j i)) →
    ∀ pref, kasaiPref w sa j pref →
    ∃ L, lcp_loop w sa sa.length rest arr pref = some L ∧
      L.length = w.length ∧
      ∀ i, i < w.length → L.get? i = some (kasaiCell w sa w.length i) := by
  have hlen1 : sa.length = w.length := h.1
  intro rest
  induction rest with
  | nil =>
    intro j hrest hj arr halen hacell pref _
    have hdl := congrArg List.length hrest
    rw [List.length_nil, List.length_drop] at hdl
    have hjeq : j = w.length := by omega
    subst hjeq
    exact ⟨arr, rfl, halen, hacell⟩
  | cons x rest' ih =>
    intro j hrest hj arr halen hacell pref hpref
    have hdl := congrArg List.length hrest
    rw [List.length_cons, List.length_drop] at hdl
    have hjlt : j < R.length := by omega
    have hgetx : R.get? j = some x := by
      have h0 := List.get?_drop R j 0
      rw [← hrest] at h0
      simpa using h0.symm
    have hrest' : rest' = R.drop (j + 1) := by
      have h1 := List.drop_drop 1 j R
      rw [← hrest] at h1
      simpa [Nat.add_comm] using h1
    have hjw : j < w.length := by omega
    obtain ⟨rj, hrj⟩ := List.mem_iff_get?.1 (isSortedSA_lt_mem h j hjw)
    have hxval : x = rj + 1 := Option.some.inj (hgetx.symm.trans (hR rj j hrj))
    subst hxval
    have hrjlt : rj < sa.length := get?_some_lt hrj
    by_cases hxn : rj + 1 = sa.length
    · -- the processed position ranks last: the loop resets `pref_len`
      have hcell' : ∀ i, i < w.length → arr.get? i
          = some (kasaiCell w sa (j + 1) i) := by
        intro i hi
        rw [hacell i hi, kasaiCell_succ_ne h hrj hi (by omega)]
      obtain ⟨L, hL, hLlen, hLcell⟩ := ih (j + 1) hrest' (by omega) arr halen
        hcell' 0 (fun k _ _ succ _ => Nat.zero_le _)
      refine ⟨L, ?_, hLlen, hLcell⟩
      simp only [lcp_loop]
      rw [if_pos hxn]
      exact hL
    · -- ordinary iteration: write the adjacent-suffix LCP into cell `rj + 1`
      have hrj1lt : rj + 1 < sa.length := Nat.lt_of_le_of_ne hrjlt hxn
      obtain ⟨q, hq⟩ : ∃ q, sa.get? (rj + 1) = some q := ⟨_, List.get?_eq_get hrj1lt⟩
      have hqw : q < w.length := isSortedSA_mem_lt h q (List.get?_mem hq)
      have hprefle : pref ≤ lcpLen (w.drop j) (w.drop q) := hpref rj hrj hrj1lt q hq
      have hpl : count_eq (w.drop j) (w.drop q) (w.length + 1) pref
          = lcpLen (w.drop j) (w.drop q) :=
        count_eq_spec (w.length + 1) _ _ pref hprefle
          (by rw [List.length_drop]; omega)
      have hset : setChk arr (rj + 1)
            (count_eq (w.drop j) (w.drop q) (w.length + 1) pref)
          = some (arr.set (rj + 1)
            (count_eq (w.drop j) (w.drop q) (w.length + 1) pref)) := by
        rw [setChk, if_pos (by omega : rj + 1 < arr.length)]
      have hcellset : kasaiCell w sa (j + 1) (rj + 1)
          = lcpLen (w.drop j) (w.drop q) := by
        rw [kasaiCell]
        simp only [Nat.add_sub_cancel]
        rw [getD_of_get? hrj, getD_of_get? hq]
        rw [if_pos ⟨by omega, Nat.lt_succ_self j⟩]
      have hcell' : ∀ i, i < w.length →
          (arr.set (rj + 1) (lcpLen (w.drop j) (w.drop q))).get? i
            = some (kasaiCell w sa (j + 1) i) := by
        intro i hi
        by_cases hieq : i = rj + 1
        · subst hieq
          rw [List.get?_set_eq_of_lt _ (by omega : rj + 1 < arr.length), hcellset]
        · rw [List.get?_set_ne _ _ (fun he => hieq he.symm)]
          rw [hacell i hi, kasaiCell_succ_ne h hrj hi hieq]
      obtain ⟨L, hL, hLlen, hLcell⟩ := ih (j + 1) hrest' (by omega)
        (arr.set (rj + 1) (lcpLen (w.drop j) (w.drop q)))
        (by rw [List.length_set, halen]) hcell'
        (lcpLen (w.drop j) (w.drop q) - 1) (kasai_step h hrj hq)
      refine ⟨L, ?_, hLlen, hLcell⟩
      rw [lcp_loop_cons_step hxn (Nat.succ_ne_zero rj) hrj hq
        (Nat.le_of_lt hjw) (Nat.le_of_lt hqw) hset]
      rw [hpl]
      have hprefeq : (if lcpLen (w.drop j) (w.drop q) > 0
          then lcpLen (w.drop j) (w.drop q) - 1
          else lcpLen (w.drop j) (w.drop q)) = lcpLen (w.drop j) (w.drop q) - 1 := by
        by_cases h0 : lcpLen (w.drop j) (w.drop q) > 0
        · rw [if_pos h0]
        · rw [if_neg h0]
          omega
      rw [hprefeq]
      exact hL

theorem lcp_sorted {w sa : List Nat} (h : isSortedSA w sa) :
    SuffixArray.lcp ⟨w, sa⟩ = some (lcp_spec w sa) := by
  have hlen1 : sa.length = w.length := h.1
  obtain ⟨R, hbuild, hRlen, hR⟩ := build_sa_idx_spec h
  have hinit : ∀ i, i < w.length →
      (List.replicate sa.length 0).get? i = some (kasaiCell w sa 0 i) := by
    intro i hi
    have hc0 : kasaiCell w sa 0 i = 0 := by
      rw [kasaiCell, if_neg (fun hc => Nat.not_lt_zero _ hc.2)]
    rw [get?_replicate_lt (by omega), hc0]
  obtain ⟨L, hloop, hLlen, hLcell⟩ := lcp_loop_spec w sa R h hR hRlen R 0
    (List.drop_zero R).symm (Nat.zero_le _) (List.replicate sa.length 0)
    (by rw [List.length_replicate, hlen1]) hinit 0
    (fun k _ _ succ _ => Nat.zero_le _)
  unfold SuffixArray.lcp
  rw [hbuild]
  simp only [Option.bind_eq_bind, Option.some_bind]
  rw [hloop]
  congr 1
  apply List.ext
  intro i
  rcases Nat.lt_or_ge i w.length with hi | hi
  · rw [hLcell i hi]
    simp only [lcp_spec]
    rw [List.get?_map, List.get?_range (by omega : i < sa.length)]
    simp only [Option.map_some']
    have hval : kasaiCell w sa w.length i = if i = 0 then (0 : Nat)
        else lcpLen (w.drop (sa.getD (i - 1) 0)) (w.drop (sa.getD i 0)) := by
      rw [kasaiCell]
      by_cases hi0 : i = 0
      · subst hi0
        have hnc : ¬(1 ≤ 0 ∧ sa.getD (0 - 1) 0 < w.length) := fun hc => by omega
        rw [if_neg hnc, if_pos rfl]
      · have h1i : 1 ≤ i := by omega
        have hi1 : i - 1 < sa.length := by omega
        obtain ⟨v, hv⟩ : ∃ v, sa.get? (i - 1) = some v := ⟨_, List.get?_eq_get hi1⟩
        have hgd : sa.getD (i - 1) 0 < w.length := by
          rw [getD_of_get? hv]
          exact isSortedSA_mem_lt h v (List.get?_mem hv)
        rw [if_pos ⟨h1i, hgd⟩, if_neg hi0]
    rw [hval]
  · rw [List.get?_eq_none.2 (by rw [hLlen]; exact hi)]
    rw [List.get?_eq_none.2
      (by simp only [lcp_spec, List.length_map, List.length_range]; omega)]

/-- C3 (counterexample).  The claim states that for every byte string `W`
the array returned by `SuffixArray::new(W).lcp()` satisfies the Kasai
property.  For `W = "\0a"` the constructor succeeds but returns the broken
vector `[0, 0, 1]` (the interior NUL defeats the SA-IS sort), and `lcp()`
on that result hits a rank cell the permutation never wrote: it computes
`x - 1` with `x = 0` on an unsigned index (a panic in debug, wrap-around
indexing in release), modelled as `none`. -/
theorem c3_lcp_fails_on_interior_nul :
    SuffixArray.new usizeMax nulA = .ok ⟨[0, 97, 0], [0, 0, 1]⟩ ∧
    SuffixArray.lcp ⟨[0, 97, 0], [0, 0, 1]⟩ = none := by
  decide

/-- C3 (amended).  Whenever the constructed suffix array is actually
sorted — which holds exactly when the SA-IS builder was not confused by an
interior NUL — `lcp()` returns `some` of precisely the specified array:
`L[0] = 0` and `L[i]` the longest-common-prefix length of the adjacent
suffixes `W'[SA[i-1]..]` and `W'[SA[i]..]`. -/
theorem c3_lcp_kasai_correct_for_sorted_sa (maxIdx : Nat) (w : List Nat)
    (A : SuffixArray) (hnew : SuffixArray.new maxIdx w = .ok A)
    (hsorted : isSortedSA A.word A.sa) :
    A.lcp = some (lcp_spec A.word A.sa) := by
  obtain ⟨wo, sa⟩ := A
  exact lcp_sorted hsorted

/-- Witness for C3: the word `"word"`; its suffix array is sorted and
`lcp()` returns the specified array. -/
theorem c3_lcp_kasai_correct_witness :
    SuffixArray.new usizeMax wordW
        = .ok ⟨[119, 111, 114, 100, 0], [4, 3, 1, 2, 0]⟩ ∧
    isSortedSA [119, 111, 114, 100, 0] [4, 3, 1, 2, 0] ∧
    SuffixArray.lcp ⟨[119, 111, 114, 100, 0], [4, 3, 1, 2, 0]⟩
      = some (lcp_spec [119, 111, 114, 100, 0] [4, 3, 1, 2, 0]) :=
  ⟨by decide, by decide,
    c3_lcp_kasai_correct_for_sorted_sa usizeMax wordW
      ⟨[119, 111, 114, 100, 0], [4, 3, 1, 2, 0]⟩ (by decide) (by decide)⟩

end SuffCollections
